import Mathlib

/-!
# mem-kv-cpp: a shallow embedding of the storage / metrics / batching core

This file embeds the core of the `mem-kv-cpp` in-memory key-value store in
Lean 4 and settles the frozen claims about it.

Conventions of the embedding:
* C++ `std::string` is `List Char` (`Str`); byte strings of the repo are
  ASCII so `Char` is faithful.
* `std::unordered_map<std::string, CacheEntry>` is an association list with
  pairwise-distinct keys; it is extensionally the finite map the C++ map is.
  The `Shard shards[16]` array is a list of such association lists, indexed
  by `std::hash(key) % 16`; the hash is an arbitrary parameter
  `hash : Str → Nat`, as the source only requires determinism per run.
* Wall-clock instants (`now_ms`, `expiry_at_ms`) are `Int` (C++ `long long`);
  each operation that reads the clock takes the instant as an argument.
* Measured latencies (`duration.count()`) are nondeterministic; an operation
  that records one takes it as an argument `d : Nat`.
* Code that can throw (`std::stoi`, `std::string::substr`, `resize` with a
  negative size) returns `Option`, `none` being the exception; the journal
  replay loop has no handler, so `none` propagates out of it.
* Locks do not appear in sequential code, with one exception: C++
  `std::mutex` is non-recursive, so a function that may be entered with the
  batch mutex already held by the calling thread takes that fact as a
  `Bool` and returns `none` (deadlock) when it would lock the mutex again.
* `double` percentile ranks are embedded as exact rationals; the constants
  used by the source (0.50, 0.95, 0.99) and the products with sample counts
  up to the 10,000-sample cap round to the same floors in IEEE double.
-/

namespace MemKV

/-- C++ byte string. -/
abbrev Str := List Char

/-- Characters `isspace` accepts in the default locale (what `operator>>`
and `std::ws` skip). -/
def wsChars : Str := [' ', '\t', '\n', '\x0b', '\x0c', '\r']

def isWs (c : Char) : Bool := decide (c ∈ wsChars)

/-- Convenience: string literal to `Str`. -/
def str (s : String) : Str := s.toList

/-! ## Tokenization (std::stringstream extraction) -/

/-- Skip leading whitespace (`ss >> std::ws`, and the skip `operator>>` does). -/
def dropWs : Str → Str
  | [] => []
  | c :: rest => if isWs c then dropWs rest else c :: rest

/-- The maximal non-whitespace run at the front, and the rest. -/
def takeNonWs : Str → Str × Str
  | [] => ([], [])
  | c :: rest =>
    if isWs c then ([], c :: rest)
    else
      let p := takeNonWs rest
      (c :: p.1, p.2)

/-- `ss >> tok`: skip whitespace, then extract the maximal non-whitespace
run.  On end of input the extracted token is empty. -/
def extractToken (s : Str) : Str × Str := takeNonWs (dropWs s)

/-- `while (stream >> part) parts.push_back(part);` -/
def tokensAux : Str → Str → List Str
  | [], cur => if cur = [] then [] else [cur.reverse]
  | c :: rest, cur =>
    if isWs c then
      if cur = [] then tokensAux rest [] else cur.reverse :: tokensAux rest []
    else tokensAux rest (c :: cur)

def tokens (s : Str) : List Str := tokensAux s []

/-- `std::getline(stream, line)` semantics within one journal line: read up
to a newline (the line terminator is consumed and dropped). -/
def takeToNl (s : Str) : Str := s.takeWhile (fun c => c ≠ '\n')

/-! ## std::stoi -/

def digitsToNat (ds : Str) : Nat :=
  ds.foldl (fun a c => a * 10 + (c.toNat - '0'.toNat)) 0

def INT_MAX : Int := 2147483647
def INT_MIN : Int := -2147483648

/-- `std::stoi`: skip whitespace, optional sign, then the longest run of
decimal digits.  `none` models the exception: `std::invalid_argument` when
no digit follows, `std::out_of_range` when the value does not fit `int`. -/
def stoi? (s : Str) : Option Int :=
  let s1 := dropWs s
  let sgn : Int := match s1 with
    | '-' :: _ => -1
    | _ => 1
  let s2 : Str := match s1 with
    | '-' :: r => r
    | '+' :: r => r
    | _ => s1
  let ds := s2.takeWhile Char.isDigit
  if ds = [] then none
  else
    let v : Int := sgn * (digitsToNat ds : Int)
    if v < INT_MIN ∨ INT_MAX < v then none else some v

/-! ## Parsed commands (src/protocol/command.h, final snapshot) -/

inductive CommandType
  | SET | GET | DEL | COMPACT | STATS | MGET | UNKNOWN
deriving DecidableEq

structure ParsedCommand where
  type : CommandType := .UNKNOWN
  key : Str := []
  value : Str := []
  /-- For MGET. -/
  keys : List Str := []
  /-- ML cache TTL (C++ `int`). -/
  ttl_seconds : Int := 0
  valid : Bool := true
deriving DecidableEq

/-- Do the whitespace-separated parts of a SET payload end in a TTL clause
(`... EX <last>` or `... TTL <last>`)?  This is the test
`parts.size() >= 3 && (parts[parts.size()-2] == "EX" || parts[parts.size()-2] == "TTL")`. -/
def ttlClause (parts : List Str) : Prop :=
  3 ≤ parts.length ∧
    (parts.getD (parts.length - 2) [] = str "EX" ∨
     parts.getD (parts.length - 2) [] = str "TTL")

instance (parts : List Str) : Decidable (ttlClause parts) := by
  unfold ttlClause; infer_instance

/-- `Parser::parse_plain_text`.  `none` models an uncaught exception
(`std::stoi` on a non-integer TTL field). -/
def parse_plain_text (input : Str) : Option ParsedCommand :=
  let p0 := extractToken input
  let cmdName := p0.1
  let rest := p0.2
  if cmdName = str "SET" then
    let p1 := extractToken rest
    let key := p1.1
    -- std::getline(ss >> std::ws, value_part)
    let valuePart := takeToNl (dropWs p1.2)
    let parts := tokens valuePart
    if ttlClause parts then
      match stoi? (parts.getLastD []) with
      | none => none
      | some t =>
        -- value is everything except the last 2 parts, re-joined with ' '
        some { type := .SET, key := key,
               value := List.intercalate [' '] (parts.take (parts.length - 2)),
               ttl_seconds := t }
    else
      some { type := .SET, key := key, value := valuePart }
  else if cmdName = str "GET" then
    some { type := .GET, key := (extractToken rest).1 }
  else if cmdName = str "DEL" then
    some { type := .DEL, key := (extractToken rest).1 }
  else if cmdName = str "COMPACT" then
    some { type := .COMPACT }
  else if cmdName = str "STATS" then
    some { type := .STATS }
  else if cmdName = str "MGET" then
    let ks := tokens rest
    some { type := .MGET, keys := ks, valid := decide (ks ≠ []) }
  else
    some { type := .UNKNOWN, valid := false }

/-! ### Parser::parse_resp

An `std::istringstream` is the remaining characters plus a fail flag; a
failed extraction leaves the flag set and every later extraction fails. -/

structure IStream where
  buf : Str
  failed : Bool := false
deriving DecidableEq

/-- `std::getline(ss, line)`: fails (with `line` erased) when the stream has
already failed or is at end of input; otherwise reads up to and consumes a
newline. -/
def streamGetline (st : IStream) : Str × IStream :=
  if st.failed ∨ st.buf = [] then ([], { st with failed := true })
  else
    (st.buf.takeWhile (fun c => c ≠ '\n'),
     { st with buf := (st.buf.dropWhile (fun c => c ≠ '\n')).drop 1 })

/-- `str.resize(n); ss.read(&str[0], n)`: reads what is available up to `n`;
the resize pre-filled the string with NUL, so a short read leaves NULs at
the tail and sets the fail flag. -/
def streamRead (st : IStream) (n : Nat) : Str × IStream :=
  if st.failed then (List.replicate n '\x00', st)
  else
    let got := st.buf.take n
    (got ++ List.replicate (n - got.length) '\x00',
     { buf := st.buf.drop n, failed := decide (got.length < n) })

/-- `line[0]`: on an empty `std::string`, `operator[]` at `size()` yields the
NUL terminator (well defined since C++11). -/
def charAt0 (l : Str) : Char := l.headD '\x00'

/-- `line.substr(1)`: throws `std::out_of_range` (`none`) when the string is
empty. -/
def substr1 (l : Str) : Option Str :=
  match l with
  | [] => none
  | _ :: r => some r

/-- `$<len>` header: `std::stoi(line.substr(1))`, then `resize(len)` —
`resize` with a negative `int` converts to a huge `size_t` and throws
`std::length_error`.  `none` is any of those exceptions. -/
def bulkLen (line : Str) : Option Nat :=
  match substr1 line with
  | none => none
  | some s =>
    match stoi? s with
    | none => none
    | some n => if n < 0 then none else some n.toNat

/-- One bulk string as the SET branch reads its key: header line (taken on
faith, no `$` check in the source), payload read, trailing getline.
`none` = exception. -/
def readBulk (st : IStream) : Option (Str × IStream) :=
  let p := streamGetline st
  match bulkLen p.1 with
  | none => none
  | some n =>
    let q := streamRead p.2 n
    let r := streamGetline q.2
    some (q.1, r.2)

/-- The MGET argument loop of `parse_resp`: for each remaining array slot,
a `$len` header (a non-`$` first byte returns the command invalid), the
payload, and the trailing line. -/
def respMgetLoop : Nat → IStream → List Str → Option (Bool × List Str)
  | 0, _, acc => some (true, acc)
  | n + 1, st, acc =>
    let p := streamGetline st
    if charAt0 p.1 ≠ '$' then some (false, acc)
    else
      match bulkLen p.1 with
      | none => none
      | some len =>
        let q := streamRead p.2 len
        let r := streamGetline q.2
        respMgetLoop n r.2 (acc ++ [q.1])

/-- `Parser::parse_resp`.  `none` models an uncaught exception. -/
def parse_resp (input : Str) : Option ParsedCommand :=
  let st0 : IStream := { buf := input }
  let p0 := streamGetline st0
  if p0.2.failed ∨ charAt0 p0.1 ≠ '*' then
    some { type := .UNKNOWN, valid := false }
  else
    match substr1 p0.1 with
    | none => none
    | some s0 =>
    match stoi? s0 with
    | none => none
    | some arrayLen =>
    if arrayLen < 1 then some { type := .UNKNOWN, valid := false }
    else
      let p1 := streamGetline p0.2
      if p1.2.failed ∨ charAt0 p1.1 ≠ '$' then
        some { type := .UNKNOWN, valid := false }
      else
        match bulkLen p1.1 with
        | none => none
        | some cmdLen =>
          let q := streamRead p1.2 cmdLen
          let cmdName := q.1
          let st2 := (streamGetline q.2).2
          if cmdName = str "SET" ∧ 3 ≤ arrayLen then
            match readBulk st2 with
            | none => none
            | some kk =>
              -- the value bulk: header, payload, no trailing getline in the source
              let p2 := streamGetline kk.2
              match bulkLen p2.1 with
              | none => none
              | some vlen =>
                let v := streamRead p2.2 vlen
                some { type := .SET, key := kk.1, value := v.1 }
          else if cmdName = str "GET" ∧ 2 ≤ arrayLen then
            -- key bulk: header then payload, no trailing getline
            let p2 := streamGetline st2
            match bulkLen p2.1 with
            | none => none
            | some klen =>
              let k := streamRead p2.2 klen
              some { type := .GET, key := k.1 }
          else if cmdName = str "DEL" ∧ 2 ≤ arrayLen then
            let p2 := streamGetline st2
            match bulkLen p2.1 with
            | none => none
            | some klen =>
              let k := streamRead p2.2 klen
              some { type := .DEL, key := k.1 }
          else if cmdName = str "COMPACT" ∧ arrayLen = 1 then
            some { type := .COMPACT }
          else if cmdName = str "MGET" ∧ 2 ≤ arrayLen then
            match respMgetLoop (arrayLen - 1).toNat st2 [] with
            | none => none
            | some out =>
              some { type := .MGET, keys := out.2, valid := out.1 }
          else
            some { type := .UNKNOWN, valid := false }

/-- `Parser::parse`: dispatch on the first byte. -/
def parse (input : Str) : Option ParsedCommand :=
  if input = [] then some { type := .UNKNOWN, valid := false }
  else if charAt0 input = '*' then parse_resp input
  else parse_plain_text input

/-! ## Metrics (src/metrics/metrics.h) -/

def MAX_SAMPLES : Nat := 10000

/-- `LatencyHistogram`: six bucket counters and the bounded ring of recent
latency samples (newest at the back). -/
structure LatencyHistogram where
  bucket_1ms : Nat := 0
  bucket_5ms : Nat := 0
  bucket_10ms : Nat := 0
  bucket_50ms : Nat := 0
  bucket_100ms : Nat := 0
  bucket_plus : Nat := 0
  latency_samples : List Nat := []
deriving DecidableEq

/-- `LatencyHistogram::record`. -/
def LatencyHistogram.record (h : LatencyHistogram) (micros : Nat) : LatencyHistogram :=
  let millis := micros / 1000
  let h :=
    if millis < 1 then { h with bucket_1ms := h.bucket_1ms + 1 }
    else if millis < 5 then { h with bucket_5ms := h.bucket_5ms + 1 }
    else if millis < 10 then { h with bucket_10ms := h.bucket_10ms + 1 }
    else if millis < 50 then { h with bucket_50ms := h.bucket_50ms + 1 }
    else if millis < 100 then { h with bucket_100ms := h.bucket_100ms + 1 }
    else { h with bucket_plus := h.bucket_plus + 1 }
  let samples := h.latency_samples ++ [micros]
  -- if (latency_samples.size() > MAX_SAMPLES) erase(begin())
  { h with latency_samples := if MAX_SAMPLES < samples.length then samples.tail else samples }

/-- `LatencyHistogram::percentile`: copy, sort ascending, index at the
truncation of `p * n` clamped to `n - 1`.  The `double` rank is embedded as
an exact rational (see the header comment). -/
def LatencyHistogram.percentile (h : LatencyHistogram) (p : ℚ) : Nat :=
  if h.latency_samples.isEmpty then 0
  else
    let sorted := List.insertionSort (· ≤ ·) h.latency_samples
    let index := (⌊p * (h.latency_samples.length : ℚ)⌋).toNat
    let index := if sorted.length ≤ index then sorted.length - 1 else index
    sorted.getD index 0

/-- The six buckets in export order (`get_counts`). -/
def LatencyHistogram.bucketList (h : LatencyHistogram) : List Nat :=
  [h.bucket_1ms, h.bucket_5ms, h.bucket_10ms, h.bucket_50ms, h.bucket_100ms, h.bucket_plus]

/-- Which bucket `record` selects for a latency of `micros` microseconds:
`micros/1000` milliseconds against the boundaries <1, <5, <10, <50, <100, else. -/
def bucketIndexOf (micros : Nat) : Nat :=
  let millis := micros / 1000
  if millis < 1 then 0
  else if millis < 5 then 1
  else if millis < 10 then 2
  else if millis < 50 then 3
  else if millis < 100 then 4
  else 5

/-- Pointwise `≤` on the six bucket counters. -/
def bucketsLE (h h' : LatencyHistogram) : Prop :=
  h.bucket_1ms ≤ h'.bucket_1ms ∧ h.bucket_5ms ≤ h'.bucket_5ms ∧
  h.bucket_10ms ≤ h'.bucket_10ms ∧ h.bucket_50ms ≤ h'.bucket_50ms ∧
  h.bucket_100ms ≤ h'.bucket_100ms ∧ h.bucket_plus ≤ h'.bucket_plus

/-- The process-wide `Metrics` instance, as explicit state. -/
structure Metrics where
  cache_hits : Nat := 0
  cache_misses : Nat := 0
  total_requests : Nat := 0
  total_latency_us : Nat := 0
  latency_histogram : LatencyHistogram := {}
  total_batches : Nat := 0
  total_batched_writes : Nat := 0
deriving DecidableEq

/-- `Metrics::record_latency`. -/
def Metrics.record_latency (m : Metrics) (microseconds : Nat) : Metrics :=
  { m with total_latency_us := m.total_latency_us + microseconds,
           latency_histogram := m.latency_histogram.record microseconds }

/-- `Metrics::record_batch`. -/
def Metrics.record_batch (m : Metrics) (batchSize : Nat) : Metrics :=
  { m with total_batches := m.total_batches + 1,
           total_batched_writes := m.total_batched_writes + batchSize }

/-! ## The sharded map (src/protocol/command.h, final snapshot) -/

def NUM_SHARDS : Nat := 16

/-- `CacheEntry`: value plus wall-clock expiry in ms, `0` = permanent. -/
structure CacheEntry where
  value : Str
  expiry_at_ms : Int := 0
deriving DecidableEq

/-- `CacheEntry::is_expired`, at clock reading `nowMs`. -/
def CacheEntry.is_expired (e : CacheEntry) (nowMs : Int) : Bool :=
  if e.expiry_at_ms = 0 then false else decide (e.expiry_at_ms < nowMs)

/-- One shard's `unordered_map`, as an association list (keys distinct in
any state the code builds). -/
abbrev Shard := List (Str × CacheEntry)

/-- `Shard shards[NUM_SHARDS]`. -/
abbrev ShardStore := List Shard

def emptyStore : ShardStore := List.replicate NUM_SHARDS []

/-- `unordered_map::find`. -/
def alookup : Shard → Str → Option CacheEntry
  | [], _ => none
  | (k', e) :: rest, k => if k = k' then some e else alookup rest k

/-- `unordered_map::erase(key)` / `erase(it)`. -/
def aerase : Shard → Str → Shard
  | [], _ => []
  | (k', e) :: rest, k => if k = k' then aerase rest k else (k', e) :: aerase rest k

/-- `data[key] = entry` (insert or overwrite). -/
def aset : Shard → Str → CacheEntry → Shard
  | [], k, e => [(k, e)]
  | (k', e') :: rest, k, e => if k = k' then (k, e) :: rest else (k', e') :: aset rest k e

/-- `Impl::get_shard_index`. -/
def get_shard_index (hash : Str → Nat) (k : Str) : Nat := hash k % NUM_SHARDS

def shardOf (st : ShardStore) (i : Nat) : Shard := st.getD i []

def storeLookup (hash : Str → Nat) (st : ShardStore) (k : Str) : Option CacheEntry :=
  alookup (shardOf st (get_shard_index hash k)) k

def storeSet (hash : Str → Nat) (st : ShardStore) (k : Str) (e : CacheEntry) : ShardStore :=
  let i := get_shard_index hash k
  st.set i (aset (shardOf st i) k e)

def storeErase (hash : Str → Nat) (st : ShardStore) (k : Str) : ShardStore :=
  let i := get_shard_index hash k
  st.set i (aerase (shardOf st i) k)

/-! ### Journal line rendering -/

def natChars (n : Nat) : Str := (toString n).toList

/-- `journal_ << ttl` for an `int`. -/
def intChars (i : Int) : Str := (toString i).toList

/-- The line `set` appends: `SET <key> <value>` plus ` EX <ttl>` when
`ttl_seconds > 0`. -/
def renderSetJournal (k v : Str) (ttl : Int) : Str :=
  str "SET " ++ k ++ [' '] ++ v ++ (if 0 < ttl then str " EX " ++ intChars ttl else [])

/-- The line `compact` writes for a surviving entry: no TTL clause. -/
def renderCompactLine (k v : Str) : Str :=
  str "SET " ++ k ++ [' '] ++ v

/-- The line `del` appends. -/
def renderDelLine (k : Str) : Str := str "DEL " ++ k

/-- `(nil)`. -/
def nilStr : Str := str "(nil)"

/-! ### Store operations.  Each clock read is an argument `now`; each
measured latency is an argument `d`.  `jOpen` is `journal_.is_open()`. -/

/-- `Impl::set`. -/
def kvSet (hash : Str → Nat) (st : ShardStore) (j : List Str) (jOpen : Bool)
    (k v : Str) (ttl : Int) (now : Int) : ShardStore × List Str :=
  let e : CacheEntry :=
    { value := v, expiry_at_ms := if 0 < ttl then now + ttl * 1000 else 0 }
  (storeSet hash st k e,
   if jOpen then j ++ [renderSetJournal k v ttl] else j)

/-- `Impl::get`: returns the response fragment, the store after lazy
eviction, and the metrics after the hit/miss counters and the latency
sample. -/
def kvGet (hash : Str → Nat) (st : ShardStore) (met : Metrics) (k : Str)
    (now : Int) (d : Nat) : Str × ShardStore × Metrics :=
  let met := { met with total_requests := met.total_requests + 1 }
  match storeLookup hash st k with
  | none =>
    (nilStr, st, ({ met with cache_misses := met.cache_misses + 1 }).record_latency d)
  | some e =>
    if e.is_expired now then
      (nilStr, storeErase hash st k,
       ({ met with cache_misses := met.cache_misses + 1 }).record_latency d)
    else
      (e.value, st, ({ met with cache_hits := met.cache_hits + 1 }).record_latency d)

/-- `Impl::del`: whether an entry existed, the store, the journal. -/
def kvDel (hash : Str → Nat) (st : ShardStore) (j : List Str) (jOpen : Bool)
    (k : Str) : Bool × ShardStore × List Str :=
  let existed := (storeLookup hash st k).isSome
  (existed, storeErase hash st k,
   if jOpen ∧ existed then j ++ [renderDelLine k] else j)

/-! ### Impl::mget -/

/-- `shard_order`: shard indices in order of first appearance while scanning
the keys left to right (`shard_to_indices.find(idx) == end()` is "idx not
seen yet"). -/
def shardOrderAux (seen : List Nat) : List Nat → List Nat
  | [] => []
  | s :: rest =>
    if s ∈ seen then shardOrderAux seen rest
    else s :: shardOrderAux (s :: seen) rest

def mgetShardOrder (hash : Str → Nat) (keys : List Str) : List Nat :=
  shardOrderAux [] (keys.map (get_shard_index hash))

/-- `shard_to_indices[s]`: the input positions whose key lives on shard `s`,
in ascending order (they were pushed while scanning `i = 0..n-1`). -/
def shardGroup (hash : Str → Nat) (keys : List Str) (s : Nat) : List Nat :=
  (List.range keys.length).filter (fun i => get_shard_index hash (keys.getD i []) = s)

/-- The body of mget's inner loop for one input position: the same
hit/expiry logic as `get`, writing `results[key_idx]` in place. -/
def mgetStep (hash : Str → Nat) (now : Int) (keys : List Str)
    (acc : ShardStore × List Str) (i : Nat) : ShardStore × List Str :=
  let k := keys.getD i []
  match storeLookup hash acc.1 k with
  | none => (acc.1, acc.2.set i nilStr)
  | some e =>
    if e.is_expired now then (storeErase hash acc.1 k, acc.2.set i nilStr)
    else (acc.1, acc.2.set i e.value)

/-- `Impl::mget`: group positions by shard, walk shards in first-appearance
order, process each shard's positions, record one latency sample. -/
def kvMget (hash : Str → Nat) (st : ShardStore) (met : Metrics)
    (keys : List Str) (now : Int) (d : Nat) : List Str × ShardStore × Metrics :=
  let res0 : List Str := List.replicate keys.length []  -- results.resize(keys.size())
  let out :=
    (mgetShardOrder hash keys).foldl
      (fun acc s => (shardGroup hash keys s).foldl (mgetStep hash now keys) acc)
      (st, res0)
  (out.2, out.1, met.record_latency d)

/-! ### Impl::compact and the background flusher -/

def COMPACTION_THRESHOLD : Nat := 100 * 1024 * 1024

/-- The temp-file contents compaction writes: for each shard in index
order, one `SET <key> <value>` line per non-expired entry — no `EX`
clause. -/
def compactLines (st : ShardStore) (now : Int) : List Str :=
  st.flatMap (fun sh =>
    (sh.filter (fun kv => ¬ kv.2.is_expired now)).map
      (fun kv => renderCompactLine kv.1 kv.2.value))

/-- `Impl::compact` in full: the shard walk only reads the shards — the
in-memory store it leaves behind is returned so the no-eviction effect is a
statement, not a typing accident.  The rename makes the temp contents the
on-disk journal. -/
def compactFull (st : ShardStore) (j : List Str) (now : Int) :
    ShardStore × List Str :=
  let temp := compactLines st now
  -- close, rename temp over the journal, reopen in append mode
  let _ := j
  (st, temp)

/-- One iteration of the flusher thread's loop: flush buffered bytes (no
effect on the logical journal contents), and on the 60 s boundary compact
when the file exceeds the threshold.  The in-memory store is untouched in
either case. -/
def flusherIteration (st : ShardStore) (j : List Str) (now : Int)
    (checkCompaction : Bool) (fileSize : Nat) : ShardStore × List Str :=
  if checkCompaction ∧ COMPACTION_THRESHOLD < fileSize then compactFull st j now
  else (st, j)

/-! ### Impl::load_from_disk (journal replay) -/

/-- Replay of one journal line: empty lines are skipped; a parsed SET or
DEL is applied to the sharded map directly (nothing is appended to the
journal); other command types fall through; `none` is an exception escaping
the replay loop. -/
def loadLine (hash : Str → Nat) (now : Int) (st : ShardStore) (line : Str) :
    Option ShardStore :=
  if line = [] then some st
  else
    match parse line with
    | none => none
    | some cmd =>
      if cmd.type = .SET then
        let e : CacheEntry :=
          { value := cmd.value,
            expiry_at_ms :=
              if 0 < cmd.ttl_seconds then now + cmd.ttl_seconds * 1000 else 0 }
        some (storeSet hash st cmd.key e)
      else if cmd.type = .DEL then
        some (storeErase hash st cmd.key)
      else some st

/-- `Impl::load_from_disk`, from a given starting store (the constructor
starts from 16 empty shards). -/
def load_from_disk (hash : Str → Nat) (now : Int) (st : ShardStore) :
    List Str → Option ShardStore
  | [] => some st
  | line :: rest =>
    match loadLine hash now st line with
    | none => none
    | some st' => load_from_disk hash now st' rest

/-! ## KVStore::execute and the system state -/

structure SysState where
  store : ShardStore := emptyStore
  journal : List Str := []
  jOpen : Bool := true
  met : Metrics := {}
deriving DecidableEq

def initState : SysState := {}

/-- `KVStore::execute` (final snapshot): dispatch a parsed command.  The
STATS response body (`Metrics::to_json`, float formatting) is not rendered;
its state effect — none — is what matters here.  `now` is the wall clock
during the call and `d` the measured latency of a read. -/
def kvExecute (hash : Str → Nat) (s : SysState) (cmd : ParsedCommand)
    (now : Int) (d : Nat) : SysState × Str :=
  if cmd.valid = false then (s, str "ERROR: Unknown command\n")
  else
    match cmd.type with
    | .SET =>
      let o := kvSet hash s.store s.journal s.jOpen cmd.key cmd.value cmd.ttl_seconds now
      ({ s with store := o.1, journal := o.2 }, str "OK\n")
    | .GET =>
      let o := kvGet hash s.store s.met cmd.key now d
      ({ s with store := o.2.1, met := o.2.2 }, o.1 ++ ['\n'])
    | .MGET =>
      let o := kvMget hash s.store s.met cmd.keys now d
      ({ s with store := o.2.1, met := o.2.2 },
       List.intercalate [' '] o.1 ++ ['\n'])
    | .DEL =>
      let o := kvDel hash s.store s.journal s.jOpen cmd.key
      ({ s with store := o.2.1, journal := o.2.2 }, str "OK\n")
    | .COMPACT =>
      let o := compactFull s.store s.journal now
      ({ s with store := o.1, journal := o.2 }, str "OK\n")
    | .STATS => (s, [])
    | .UNKNOWN => (s, str "ERROR: Unknown command\n")

/-- One public operation against the engine: a parsed command together with
the wall-clock reading and the measured latency of its execution. -/
structure Op where
  cmd : ParsedCommand
  now : Int := 0
  d : Nat := 0

def applyOps (hash : Str → Nat) (s : SysState) : List Op → SysState
  | [] => s
  | op :: rest => applyOps hash (kvExecute hash s op.cmd op.now op.d).1 rest

/-! ## WriteBatcher (write_batcher.cpp) -/

def BATCH_SIZE_THRESHOLD : Nat := 50
def FLUSH_INTERVAL_MS : Nat := 10

/-- `WriteBatcher::flush_to_store`.  The caller may or may not already hold
`batch_mtx_` — `std::mutex` is non-recursive, so taking the lock while
holding it is a self-deadlock, returned as `none`.  Otherwise: under the
lock, take the batch and leave an empty one; then `record_batch`; then
apply every command through `KVStore::execute` in order. -/
def flush_to_store (hash : Str → Nat) (batchLockHeld : Bool)
    (batch : List ParsedCommand) (s : SysState) (now : Int) (d : Nat) :
    Option (List ParsedCommand × SysState) :=
  if batchLockHeld then none
  else if batch = [] then some (batch, s)
  else
    let s := { s with met := s.met.record_batch batch.length }
    some ([], batch.foldl (fun s cmd => (kvExecute hash s cmd now d).1) s)

/-- `WriteBatcher::add_to_batch`.  Non-writes execute immediately.  A write
is appended under `batch_mtx_`; when the batch reaches the threshold,
`flush_to_store` is called from inside the `lock_guard`'s scope, i.e. with
`batch_mtx_` still held by this thread. -/
def add_to_batch (hash : Str → Nat) (batch : List ParsedCommand)
    (s : SysState) (cmd : ParsedCommand) (now : Int) (d : Nat) :
    Option (List ParsedCommand × SysState) :=
  if cmd.type ≠ .SET ∧ cmd.type ≠ .DEL then
    some (batch, (kvExecute hash s cmd now d).1)
  else
    let batch := batch ++ [cmd]
    if BATCH_SIZE_THRESHOLD ≤ batch.length then
      flush_to_store hash true batch s now d
    else some (batch, s)

/-- A concrete hash placing every key on shard 0, used to instantiate
hash-generic theorems at concrete inputs. -/
def hashZero : Str → Nat := fun _ => 0

/-- The result `get` computes for key `k` against store `st` at instant
`now`, as a pure function of the looked-up entry. -/
def getResultOf (hash : Str → Nat) (st : ShardStore) (now : Int) (k : Str) : Str :=
  match storeLookup hash st k with
  | none => nilStr
  | some e => if e.is_expired now then nilStr else e.value

/-- Is `k` bound to an entry of `st` that is expired at `now`? -/
def hasExpired (hash : Str → Nat) (st : ShardStore) (now : Int) (k : Str) : Bool :=
  match storeLookup hash st k with
  | none => false
  | some e => e.is_expired now

/-- `cache_hits + cache_misses = total_requests`, the C10 invariant. -/
def metInv (m : Metrics) : Prop :=
  m.cache_hits + m.cache_misses = m.total_requests

/-- A key the journal format can carry: nonempty, no whitespace (spec §3). -/
def wfKey (k : Str) : Prop :=
  k ≠ [] ∧ ∀ c ∈ k, isWs c = false

instance (k : Str) : Decidable (wfKey k) := by
  unfold wfKey; infer_instance

/-- A value whose `SET` line survives the replay parser unchanged: it is
newline-free, does not start with whitespace, and its whitespace-separated
parts do not end in the parser's TTL clause (`EX`/`TTL` + last token). -/
def wfValue (v : Str) : Prop :=
  dropWs v = v ∧ (∀ c ∈ v, c ≠ '\n') ∧ ¬ ttlClause (tokens v)

instance (v : Str) : Decidable (wfValue v) := by
  unfold wfValue; infer_instance

/-- A concrete two-entry store (one live, one expired at instant 10) used
to instantiate the compaction round-trip at a concrete input. -/
def c1WitnessStore : ShardStore :=
  [[(str "a", ⟨str "x y", 0⟩), (str "b", ⟨str "z", 5⟩)]]

/-- Mid-mget invariant: the store is the original `st0` minus exactly those
entries that were observed expired while processing the keys in `done`. -/
def mgetInv (hash : Str → Nat) (st0 : ShardStore) (now : Int)
    (done : List Str) (st : ShardStore) : Prop :=
  ∀ k, storeLookup hash st k =
    if k ∈ done ∧ hasExpired hash st0 now k = true then none
    else storeLookup hash st0 k

/-! # Lemmas -/

/-! ## The sharded map as a finite map -/

theorem get_shard_index_lt (hash : Str → Nat) (k : Str) :
    get_shard_index hash k < NUM_SHARDS :=
  Nat.mod_lt _ (by decide)

theorem alookup_aset_self (sh : Shard) (k : Str) (e : CacheEntry) :
    alookup (aset sh k e) k = some e := by
  induction sh with
  | nil => simp [aset, alookup]
  | cons kv rest ih =>
    obtain ⟨k1, e1⟩ := kv
    by_cases h : k = k1 <;> simp [aset, alookup, h, ih]

theorem alookup_aset_ne (sh : Shard) (k k' : Str) (e : CacheEntry) (h : k' ≠ k) :
    alookup (aset sh k e) k' = alookup sh k' := by
  induction sh with
  | nil => simp [aset, alookup, h]
  | cons kv rest ih =>
    obtain ⟨k1, e1⟩ := kv
    by_cases h1 : k = k1
    · subst h1; simp [aset, alookup, h, ih]
    · by_cases h2 : k' = k1 <;> simp [aset, alookup, h1, h2, ih]

theorem alookup_aerase_self (sh : Shard) (k : Str) :
    alookup (aerase sh k) k = none := by
  induction sh with
  | nil => simp [aerase, alookup]
  | cons kv rest ih =>
    obtain ⟨k1, e1⟩ := kv
    by_cases h : k = k1
    · subst h; simp [aerase, ih]
    · simp [aerase, alookup, h, ih]

theorem alookup_aerase_ne (sh : Shard) (k k' : Str) (h : k' ≠ k) :
    alookup (aerase sh k) k' = alookup sh k' := by
  induction sh with
  | nil => simp [aerase, alookup]
  | cons kv rest ih =>
    obtain ⟨k1, e1⟩ := kv
    by_cases h1 : k = k1
    · subst h1; simp [aerase, alookup, h, ih]
    · by_cases h2 : k' = k1 <;> simp [aerase, alookup, h1, h2, ih]

theorem aerase_aerase (sh : Shard) (k : Str) :
    aerase (aerase sh k) k = aerase sh k := by
  induction sh with
  | nil => simp [aerase]
  | cons kv rest ih =>
    obtain ⟨k1, e1⟩ := kv
    by_cases h : k = k1
    · subst h; simp [aerase, ih]
    · simp [aerase, h, ih]

theorem shardOf_set_self {st : ShardStore} {i : Nat} (sh : Shard)
    (h : i < st.length) : shardOf (st.set i sh) i = sh := by
  simp [shardOf, List.getD_eq_getElem?_getD, List.getElem?_set_self h]

theorem shardOf_set_ne {st : ShardStore} {i j : Nat} (sh : Shard)
    (h : i ≠ j) : shardOf (st.set i sh) j = shardOf st j := by
  simp [shardOf, List.getD_eq_getElem?_getD, List.getElem?_set_ne h]

theorem set_shardOf_self (st : ShardStore) (i : Nat) (h : i < st.length) :
    st.set i (shardOf st i) = st := by
  induction st generalizing i with
  | nil => simp at h
  | cons sh rest ih =>
    cases i with
    | zero => simp [shardOf]
    | succ n =>
      simp only [List.length_cons, Nat.succ_lt_succ_iff] at h
      have h2 := ih n h
      simp only [shardOf, List.getD_eq_getElem?_getD] at h2
      simp [shardOf, List.set, h2]

theorem length_storeSet (hash : Str → Nat) (st : ShardStore) (k : Str) (e : CacheEntry) :
    (storeSet hash st k e).length = st.length := by
  simp [storeSet]

theorem length_storeErase (hash : Str → Nat) (st : ShardStore) (k : Str) :
    (storeErase hash st k).length = st.length := by
  simp [storeErase]

theorem storeLookup_storeSet (hash : Str → Nat) (st : ShardStore) (k k' : Str)
    (e : CacheEntry) (hlen : st.length = NUM_SHARDS) :
    storeLookup hash (storeSet hash st k e) k' =
      if k' = k then some e else storeLookup hash st k' := by
  have hi : get_shard_index hash k < st.length := by
    rw [hlen]; exact get_shard_index_lt hash k
  by_cases hik : get_shard_index hash k' = get_shard_index hash k
  · rw [storeLookup, storeSet, hik, shardOf_set_self _ hi]
    by_cases hk : k' = k
    · subst hk; simp [alookup_aset_self]
    · simp [hk, alookup_aset_ne _ _ _ _ hk, storeLookup, hik]
  · have hk : k' ≠ k := fun h => hik (by rw [h])
    rw [storeLookup, storeSet, shardOf_set_ne _ (fun h => hik h.symm)]
    simp [hk, storeLookup]

theorem storeLookup_storeErase (hash : Str → Nat) (st : ShardStore) (k k' : Str)
    (hlen : st.length = NUM_SHARDS) :
    storeLookup hash (storeErase hash st k) k' =
      if k' = k then none else storeLookup hash st k' := by
  have hi : get_shard_index hash k < st.length := by
    rw [hlen]; exact get_shard_index_lt hash k
  by_cases hik : get_shard_index hash k' = get_shard_index hash k
  · rw [storeLookup, storeErase, hik, shardOf_set_self _ hi]
    by_cases hk : k' = k
    · subst hk; simp [alookup_aerase_self]
    · simp [hk, alookup_aerase_ne _ _ _ hk, storeLookup, hik]
  · have hk : k' ≠ k := fun h => hik (by rw [h])
    rw [storeLookup, storeErase, shardOf_set_ne _ (fun h => hik h.symm)]
    simp [hk, storeLookup]

theorem storeErase_storeErase (hash : Str → Nat) (st : ShardStore) (k : Str)
    (hlen : st.length = NUM_SHARDS) :
    storeErase hash (storeErase hash st k) k = storeErase hash st k := by
  have hi : get_shard_index hash k < st.length := by
    rw [hlen]; exact get_shard_index_lt hash k
  rw [storeErase, storeErase, shardOf_set_self _ hi, aerase_aerase, List.set_set]

/-- The value `kvGet` returns is `getResultOf`, whatever the metrics and the
measured latency. -/
theorem kvGet_fst (hash : Str → Nat) (st : ShardStore) (met : Metrics)
    (k : Str) (now : Int) (d : Nat) :
    (kvGet hash st met k now d).1 = getResultOf hash st now k := by
  unfold kvGet getResultOf
  match h : storeLookup hash st k with
  | none => simp
  | some e => by_cases he : e.is_expired now <;> simp [he]

/-! ## Parsing a compacted journal line (towards C1) -/

theorem dropWs_cons_of_neg {c : Char} (s : Str) (h : isWs c = false) :
    dropWs (c :: s) = c :: s := by
  simp [dropWs, h]

theorem dropWs_cons_of_pos {c : Char} (s : Str) (h : isWs c = true) :
    dropWs (c :: s) = dropWs s := by
  simp [dropWs, h]

theorem dropWs_append_of_wf {k : Str} (t : Str) (hk0 : k ≠ [])
    (hkws : ∀ c ∈ k, isWs c = false) : dropWs (k ++ t) = k ++ t := by
  cases k with
  | nil => exact absurd rfl hk0
  | cons c rest => exact dropWs_cons_of_neg _ (hkws c (by simp))

theorem takeNonWs_append_ws {k : Str} {w : Char} (t : Str)
    (hkws : ∀ c ∈ k, isWs c = false) (hw : isWs w = true) :
    takeNonWs (k ++ w :: t) = (k, w :: t) := by
  induction k with
  | nil => simp [takeNonWs, hw]
  | cons c rest ih =>
    have hc : isWs c = false := hkws c (by simp)
    simp only [List.cons_append, takeNonWs, hc, Bool.false_eq_true, if_false]
    simp [ih (fun c2 h2 => hkws c2 (by simp [h2]))]

theorem takeToNl_eq_self {v : Str} (hnl : ∀ c ∈ v, c ≠ '\n') :
    takeToNl v = v := by
  unfold takeToNl
  rw [List.takeWhile_eq_self_iff]
  intro a ha
  simpa using hnl a ha

theorem renderCompactLine_shape (k v : Str) :
    renderCompactLine k v = 'S' :: 'E' :: 'T' :: ' ' :: (k ++ ' ' :: v) := by
  show str "SET " ++ k ++ [' '] ++ v = _
  have hs : str "SET " = ['S', 'E', 'T', ' '] := rfl
  rw [hs]
  simp

/-- A `SET <key> <value>` line with a well-formed key and value parses back
to exactly that key and value, with no TTL. -/
theorem parse_renderCompactLine (k v : Str) (hk : wfKey k) (hv : wfValue v) :
    parse (renderCompactLine k v) = some { type := .SET, key := k, value := v } := by
  obtain ⟨hk0, hkws⟩ := hk
  obtain ⟨hv0, hvnl, hvttl⟩ := hv
  rw [renderCompactLine_shape]
  have hp : parse ('S' :: 'E' :: 'T' :: ' ' :: (k ++ ' ' :: v)) =
      parse_plain_text ('S' :: 'E' :: 'T' :: ' ' :: (k ++ ' ' :: v)) := by
    simp [parse, charAt0]
  rw [hp]
  have h0 : extractToken ('S' :: 'E' :: 'T' :: ' ' :: (k ++ ' ' :: v)) =
      (str "SET", ' ' :: (k ++ ' ' :: v)) := by
    show takeNonWs (dropWs (['S', 'E', 'T'] ++ ' ' :: (k ++ ' ' :: v))) = _
    rw [dropWs_append_of_wf _ (by simp) (by decide),
        takeNonWs_append_ws _ (by decide) (by decide)]
    rfl
  have h1 : extractToken (' ' :: (k ++ ' ' :: v)) = (k, ' ' :: v) := by
    show takeNonWs (dropWs (' ' :: (k ++ ' ' :: v))) = _
    rw [dropWs_cons_of_pos _ (by decide), dropWs_append_of_wf _ hk0 hkws,
        takeNonWs_append_ws _ hkws (by decide)]
  have h2 : takeToNl (dropWs (' ' :: v)) = v := by
    rw [dropWs_cons_of_pos _ (by decide), hv0, takeToNl_eq_self hvnl]
  simp [parse_plain_text, h0, h1, h2, hvttl]

/-- Replaying a compacted line applies a permanent `SET` to the sharded
map. -/
theorem loadLine_renderCompactLine (hash : Str → Nat) (rnow : Int)
    (st : ShardStore) (k v : Str) (hk : wfKey k) (hv : wfValue v) :
    loadLine hash rnow st (renderCompactLine k v) =
      some (storeSet hash st k ⟨v, 0⟩) := by
  have hne : renderCompactLine k v ≠ [] := by
    rw [renderCompactLine_shape]; simp
  rw [loadLine, if_neg hne, parse_renderCompactLine k v hk hv]
  simp

theorem load_from_disk_renders (hash : Str → Nat) (rnow : Int)
    (pairs : List (Str × CacheEntry)) (st : ShardStore)
    (hwf : ∀ kv ∈ pairs, wfKey kv.1 ∧ wfValue kv.2.value) :
    load_from_disk hash rnow st
        (pairs.map (fun kv => renderCompactLine kv.1 kv.2.value)) =
      some (pairs.foldl (fun st2 kv => storeSet hash st2 kv.1 ⟨kv.2.value, 0⟩) st) := by
  induction pairs generalizing st with
  | nil => rfl
  | cons kv rest ih =>
    obtain ⟨hkk, hvv⟩ := hwf kv (by simp)
    rw [List.map_cons, load_from_disk,
        loadLine_renderCompactLine hash rnow st kv.1 kv.2.value hkk hvv,
        List.foldl_cons]
    exact ih _ (fun kv2 hkv2 => hwf kv2 (by simp [hkv2]))

theorem mem_keys_of_alookup_some {sh : Shard} {k : Str} {e : CacheEntry}
    (h : alookup sh k = some e) : k ∈ sh.map Prod.fst := by
  induction sh with
  | nil => simp [alookup] at h
  | cons kv rest ih =>
    by_cases hk : k = kv.1
    · rw [List.map_cons, hk]
      exact List.mem_cons_self _ _
    · rw [alookup, if_neg hk] at h
      rw [List.map_cons]
      exact List.mem_cons_of_mem _ (ih h)

theorem alookup_eq_none_of_not_mem {sh : Shard} {k : Str}
    (h : k ∉ sh.map Prod.fst) : alookup sh k = none := by
  induction sh with
  | nil => rfl
  | cons kv rest ih =>
    simp only [List.map_cons, List.mem_cons, not_or] at h
    rw [alookup, if_neg h.1]
    exact ih h.2

theorem storeLookup_foldl_storeSet (hash : Str → Nat)
    (pairs : List (Str × CacheEntry)) (st : ShardStore) (k : Str)
    (hlen : st.length = NUM_SHARDS) (hnd : (pairs.map Prod.fst).Nodup) :
    storeLookup hash
        (pairs.foldl (fun st2 kv => storeSet hash st2 kv.1 ⟨kv.2.value, 0⟩) st) k =
      (match alookup pairs k with
       | some e => some ⟨e.value, 0⟩
       | none => storeLookup hash st k) := by
  induction pairs generalizing st with
  | nil => simp [alookup]
  | cons kv rest ih =>
    obtain ⟨k1, e1⟩ := kv
    simp only [List.map_cons, List.nodup_cons] at hnd
    rw [List.foldl_cons,
        ih _ (by rw [length_storeSet]; exact hlen) hnd.2]
    by_cases hk : k = k1
    · subst hk
      have h2 : alookup rest k = none := alookup_eq_none_of_not_mem hnd.1
      simp [h2, alookup, storeLookup_storeSet, hlen]
    · match h2 : alookup rest k with
      | some e => simp [h2, alookup, hk]
      | none => simp [h2, alookup, hk, storeLookup_storeSet, hlen]

theorem alookup_filter (p : Str × CacheEntry → Bool) (sh : Shard) (k : Str)
    (hnd : (sh.map Prod.fst).Nodup) :
    alookup (sh.filter p) k =
      (match alookup sh k with
       | some e => if p (k, e) then some e else none
       | none => none) := by
  induction sh with
  | nil => simp [alookup]
  | cons kv rest ih =>
    obtain ⟨k1, e1⟩ := kv
    simp only [List.map_cons, List.nodup_cons] at hnd
    by_cases hk : k = k1
    · subst hk
      by_cases hp : p (k, e1) = true
      · rw [List.filter_cons_of_pos hp]
        simp [alookup, hp]
      · rw [List.filter_cons_of_neg (by simpa using hp)]
        have hnone : alookup (rest.filter p) k = none := by
          apply alookup_eq_none_of_not_mem
          intro hmem
          apply hnd.1
          have hsub : List.Sublist ((rest.filter p).map Prod.fst)
              (rest.map Prod.fst) :=
            (List.filter_sublist rest).map Prod.fst
          exact hsub.mem hmem
        simp [alookup, hnone, hp]
    · by_cases hp : p (k1, e1) = true
      · rw [List.filter_cons_of_pos hp]
        simp [alookup, hk, ih hnd.2]
      · rw [List.filter_cons_of_neg (by simpa using hp)]
        simp [alookup, hk, ih hnd.2]

theorem storeLookup_emptyStore (hash : Str → Nat) (k : Str) :
    storeLookup hash emptyStore k = none := by
  unfold storeLookup shardOf emptyStore
  rw [List.getD_eq_getElem?_getD, List.getElem?_replicate]
  by_cases h : get_shard_index hash k < NUM_SHARDS <;> simp [h, alookup]

theorem compactLines_flatten (st : ShardStore) (now : Int) :
    compactLines st now =
      (st.flatten.filter (fun kv => ¬ kv.2.is_expired now)).map
        (fun kv => renderCompactLine kv.1 kv.2.value) := by
  induction st with
  | nil => rfl
  | cons sh rest ih =>
    simp only [compactLines, List.flatMap_cons, List.flatten_cons,
      List.filter_append, List.map_append]
    rw [← ih]
    rfl

/-! ## Claim C1: compaction and its replay -/

/-- C1 (amended).  Compaction writes exactly one `SET <key> <value>` line —
never an `EX` clause — for each non-expired entry, shard by shard; and for
every store whose keys are nonempty and whitespace-free, whose values are
well formed for the replay parser (no newline, no leading whitespace, and
not ending in the two-token `EX <int>` / `TTL <int>` pattern the parser
re-interprets as a TTL clause), and whose keys are pairwise distinct,
replaying the compacted journal from the empty store binds exactly the
non-expired keys to their values with no expiry. -/
theorem c1_compact_replay (hash : Str → Nat) (shards : ShardStore)
    (cnow rnow : Int)
    (hwf : ∀ sh ∈ shards, ∀ kv ∈ sh, wfKey kv.1 ∧ wfValue kv.2.value)
    (hnd : (shards.flatten.map Prod.fst).Nodup) :
    compactLines shards cnow =
      (shards.flatten.filter (fun kv => ¬ kv.2.is_expired cnow)).map
        (fun kv => renderCompactLine kv.1 kv.2.value) ∧
    (∀ k, (load_from_disk hash rnow emptyStore (compactLines shards cnow)).map
        (fun st => storeLookup hash st k) =
      some (match alookup shards.flatten k with
            | some e => if e.is_expired cnow then none else some ⟨e.value, 0⟩
            | none => none)) := by
  have hconj1 := compactLines_flatten shards cnow
  refine ⟨hconj1, ?_⟩
  intro k
  have hwfflat : ∀ kv ∈ shards.flatten, wfKey kv.1 ∧ wfValue kv.2.value := by
    intro kv hkv
    obtain ⟨sh, hsh, hkvsh⟩ := List.mem_flatten.mp hkv
    exact hwf sh hsh kv hkvsh
  have hwfpairs :
      ∀ kv ∈ shards.flatten.filter (fun kv => ¬ kv.2.is_expired cnow),
        wfKey kv.1 ∧ wfValue kv.2.value :=
    fun kv hkv => hwfflat kv (List.mem_of_mem_filter hkv)
  have hndpairs :
      ((shards.flatten.filter (fun kv => ¬ kv.2.is_expired cnow)).map Prod.fst).Nodup :=
    hnd.sublist ((List.filter_sublist shards.flatten).map Prod.fst)
  rw [hconj1, load_from_disk_renders hash rnow _ emptyStore hwfpairs,
      Option.map_some']
  rw [storeLookup_foldl_storeSet hash _ emptyStore k (by decide) hndpairs]
  rw [alookup_filter _ shards.flatten k hnd]
  match halo : alookup shards.flatten k with
  | some e =>
    by_cases hexp : e.is_expired cnow = true
    · simp [hexp, storeLookup_emptyStore]
    · simp [hexp]
  | none => simp [storeLookup_emptyStore]

/-- C1 counterexample: a reachable value that itself ends in the two tokens
`EX 5` does not survive the round trip.  Compacting the single entry
`("k", ("v EX 5", permanent))` at instant 0 and replaying at instant 1000
yields the entry `("v", expiry 6000)` — the value is truncated and a TTL is
attached — not the claimed `("v EX 5", no expiry)`. -/
theorem c1_compact_replay_cex :
    (load_from_disk hashZero 1000 emptyStore
        (compactLines [[(str "k", ⟨str "v EX 5", 0⟩)]] 0)).map
        (fun st => storeLookup hashZero st (str "k")) =
      some (some ⟨str "v", 6000⟩) ∧
    (⟨str "v", 6000⟩ : CacheEntry) ≠ ⟨str "v EX 5", 0⟩ := by
  exact ⟨by decide, by decide⟩

/-- Witness for C1 at a concrete input. -/
theorem c1_compact_replay_witness :
    ((∀ sh ∈ c1WitnessStore, ∀ kv ∈ sh, wfKey kv.1 ∧ wfValue kv.2.value) ∧
     (c1WitnessStore.flatten.map Prod.fst).Nodup) ∧
    (compactLines c1WitnessStore 10 =
      (c1WitnessStore.flatten.filter (fun kv => ¬ kv.2.is_expired 10)).map
        (fun kv => renderCompactLine kv.1 kv.2.value) ∧
    (∀ k, (load_from_disk hashZero 7 emptyStore (compactLines c1WitnessStore 10)).map
        (fun st => storeLookup hashZero st k) =
      some (match alookup c1WitnessStore.flatten k with
            | some e => if e.is_expired 10 then none else some ⟨e.value, 0⟩
            | none => none))) :=
  ⟨⟨by decide, by decide⟩,
   c1_compact_replay hashZero c1WitnessStore 10 7 (by decide) (by decide)⟩

/-! ## The mget walk (towards C3) -/

theorem foldl_flatMap {α β γ : Type _} (f : α → List β) (g : γ → β → γ)
    (l : List α) (a : γ) :
    (l.flatMap f).foldl g a = l.foldl (fun acc x => (f x).foldl g acc) a := by
  induction l generalizing a with
  | nil => rfl
  | cons x xs ih => simp [List.flatMap_cons, List.foldl_append, ih]

theorem mem_shardOrderAux (l : List Nat) (seen : List Nat) (x : Nat) :
    x ∈ shardOrderAux seen l ↔ x ∈ l ∧ x ∉ seen := by
  induction l generalizing seen with
  | nil => simp [shardOrderAux]
  | cons s rest ih =>
    by_cases hs : s ∈ seen
    · rw [shardOrderAux, if_pos hs, ih]
      constructor
      · rintro ⟨hx, hns⟩
        exact ⟨List.mem_cons_of_mem _ hx, hns⟩
      · rintro ⟨hx, hns⟩
        rcases List.mem_cons.mp hx with hxs | hxr
        · exact absurd (hxs ▸ hs) hns
        · exact ⟨hxr, hns⟩
    · rw [shardOrderAux, if_neg hs]
      constructor
      · intro hx
        rcases List.mem_cons.mp hx with hxs | hxr
        · exact ⟨hxs ▸ List.mem_cons_self s rest, hxs ▸ hs⟩
        · obtain ⟨hr, hnss⟩ := (ih (s :: seen)).mp hxr
          exact ⟨List.mem_cons_of_mem _ hr,
                 fun hmem => hnss (List.mem_cons_of_mem _ hmem)⟩
      · rintro ⟨hx, hns⟩
        by_cases hxs : x = s
        · exact hxs ▸ List.mem_cons_self s _
        · rcases List.mem_cons.mp hx with h1 | h1
          · exact absurd h1 hxs
          · exact List.mem_cons_of_mem _
              ((ih (s :: seen)).mpr ⟨h1, by simp [hxs, hns]⟩)

theorem nodup_shardOrderAux (l seen : List Nat) : (shardOrderAux seen l).Nodup := by
  induction l generalizing seen with
  | nil => simp [shardOrderAux]
  | cons s rest ih =>
    by_cases hs : s ∈ seen
    · rw [shardOrderAux, if_pos hs]; exact ih seen
    · rw [shardOrderAux, if_neg hs]
      refine List.nodup_cons.mpr ⟨?_, ih (s :: seen)⟩
      intro hmem
      exact ((mem_shardOrderAux rest (s :: seen) s).mp hmem).2
        (List.mem_cons_self s seen)

theorem shardOrderAux_sublist (l seen : List Nat) :
    List.Sublist (shardOrderAux seen l) l := by
  induction l generalizing seen with
  | nil => simp [shardOrderAux]
  | cons s rest ih =>
    by_cases hs : s ∈ seen
    · rw [shardOrderAux, if_pos hs]; exact (ih seen).cons s
    · rw [shardOrderAux, if_neg hs]; exact (ih (s :: seen)).cons₂ s

theorem mem_shardGroup (hash : Str → Nat) (keys : List Str) (s i : Nat) :
    i ∈ shardGroup hash keys s ↔
      i < keys.length ∧ get_shard_index hash (keys.getD i []) = s := by
  simp [shardGroup, List.mem_filter]

theorem nodup_shardGroup (hash : Str → Nat) (keys : List Str) (s : Nat) :
    (shardGroup hash keys s).Nodup :=
  List.Nodup.filter _ (List.nodup_range _)

theorem getD_set_self {α : Type _} (l : List α) (i : Nat) (x d : α)
    (h : i < l.length) : (l.set i x).getD i d = x := by
  rw [List.getD_eq_getElem?_getD, List.getElem?_set_self h]
  rfl

theorem getD_set_ne {α : Type _} (l : List α) (i j : Nat) (x d : α)
    (h : i ≠ j) : (l.set i x).getD j d = l.getD j d := by
  rw [List.getD_eq_getElem?_getD, List.getElem?_set_ne h,
      List.getD_eq_getElem?_getD]

/-- One mget step: processes position `i`, writing `results[i]` to exactly
what `get` would return against the original store, and extending the
eviction invariant by that key. -/
theorem mgetStep_spec (hash : Str → Nat) (st0 : ShardStore) (now : Int)
    (keys : List Str) (done : List Str) (st : ShardStore) (res : List Str)
    (i : Nat) (hlen : st.length = NUM_SHARDS) (hi : i < keys.length)
    (hinv : mgetInv hash st0 now done st) :
    (mgetStep hash now keys (st, res) i).1.length = NUM_SHARDS ∧
    mgetInv hash st0 now (done ++ [keys.getD i []])
      (mgetStep hash now keys (st, res) i).1 ∧
    (mgetStep hash now keys (st, res) i).2 =
      res.set i (getResultOf hash st0 now (keys.getD i [])) := by
  set ki := keys.getD i [] with hki
  have hcond : ∀ k, k ≠ ki →
      ((k ∈ done ++ [ki] ∧ hasExpired hash st0 now k = true) ↔
       (k ∈ done ∧ hasExpired hash st0 now k = true)) := by
    intro k hk
    constructor
    · rintro ⟨hm, hx2⟩
      rcases List.mem_append.mp hm with h1 | h1
      · exact ⟨h1, hx2⟩
      · exact absurd (List.mem_singleton.mp h1) hk
    · rintro ⟨hm, hx2⟩
      exact ⟨List.mem_append_left _ hm, hx2⟩
  have hinvcond : ∀ (st2 : ShardStore), (∀ k, k ≠ ki →
      storeLookup hash st2 k = storeLookup hash st k) →
      (∀ k, k ≠ ki → storeLookup hash st2 k =
        if k ∈ done ++ [ki] ∧ hasExpired hash st0 now k = true then none
        else storeLookup hash st0 k) := by
    intro st2 hst2 k hk
    rw [hst2 k hk, hinv k]
    by_cases hc : k ∈ done ∧ hasExpired hash st0 now k = true
    · rw [if_pos hc, if_pos ((hcond k hk).mpr hc)]
    · rw [if_neg hc, if_neg (fun h2 => hc ((hcond k hk).mp h2))]
  match h : storeLookup hash st ki with
  | none =>
    have h0 : storeLookup hash st0 ki = none ∨
        hasExpired hash st0 now ki = true := by
      have hthis := hinv ki
      rw [h] at hthis
      by_cases hc : ki ∈ done ∧ hasExpired hash st0 now ki = true
      · exact Or.inr hc.2
      · rw [if_neg hc] at hthis
        exact Or.inl hthis.symm
    have hr : getResultOf hash st0 now ki = nilStr := by
      unfold getResultOf
      match h1 : storeLookup hash st0 ki with
      | none => rfl
      | some e =>
        rcases h0 with h2 | h2
        · rw [h1] at h2; exact absurd h2 (by simp)
        · unfold hasExpired at h2
          rw [h1] at h2
          simp only [] at h2 ⊢
          simp [h2]
    refine ⟨?_, ?_, ?_⟩
    · simp only [mgetStep, ← hki, h]; exact hlen
    · intro k
      simp only [mgetStep, ← hki, h]
      by_cases hk : k = ki
      · subst hk
        by_cases hx : hasExpired hash st0 now ki = true
        · rw [if_pos ⟨List.mem_append_right _ (List.mem_singleton_self _), hx⟩]
          exact h
        · rw [if_neg (fun hc => hx hc.2), hinv ki,
              if_neg (fun hc => hx hc.2)]
      · exact hinvcond st (fun _ _ => rfl) k hk
    · simp only [mgetStep, ← hki, h, hr]
  | some e =>
    have hst0 : storeLookup hash st0 ki = some e := by
      have hthis := hinv ki
      rw [h] at hthis
      by_cases hc : ki ∈ done ∧ hasExpired hash st0 now ki = true
      · rw [if_pos hc] at hthis; exact absurd hthis (by simp)
      · rw [if_neg hc] at hthis; exact hthis.symm
    have hx : hasExpired hash st0 now ki = e.is_expired now := by
      unfold hasExpired; rw [hst0]
    by_cases hexp : e.is_expired now = true
    · have hr : getResultOf hash st0 now ki = nilStr := by
        unfold getResultOf; rw [hst0]
        simp [hexp]
      refine ⟨?_, ?_, ?_⟩
      · simp only [mgetStep, ← hki, h, hexp, if_true]
        rw [length_storeErase]; exact hlen
      · intro k
        simp only [mgetStep, ← hki, h, hexp, if_true]
        by_cases hk : k = ki
        · subst hk
          rw [storeLookup_storeErase hash st ki ki hlen, if_pos rfl,
              if_pos ⟨List.mem_append_right _ (List.mem_singleton_self _),
                      hx.trans hexp⟩]
        · refine hinvcond _ (fun k2 hk2 => ?_) k hk
          rw [storeLookup_storeErase hash st ki k2 hlen, if_neg hk2]
      · simp only [mgetStep, ← hki, h, hexp, if_true, hr]
    · have hr : getResultOf hash st0 now ki = e.value := by
        unfold getResultOf; rw [hst0]
        simp [hexp]
      refine ⟨?_, ?_, ?_⟩
      · simp only [mgetStep, ← hki, h, hexp, Bool.false_eq_true, if_false]
        exact hlen
      · intro k
        simp only [mgetStep, ← hki, h, hexp, Bool.false_eq_true, if_false]
        by_cases hk : k = ki
        · subst hk
          have hxf : hasExpired hash st0 now ki = false :=
            hx.trans (by simpa using hexp)
          rw [if_neg (by rw [hxf]; rintro ⟨_, h2⟩; exact absurd h2 (by simp)),
              hinv ki, if_neg (by rw [hxf]; rintro ⟨_, h2⟩; exact absurd h2 (by simp))]
        · exact hinvcond st (fun _ _ => rfl) k hk
      · simp only [mgetStep, ← hki, h, hexp, Bool.false_eq_true, if_false, hr]

/-- Folding `mgetStep` over a duplicate-free list of in-range positions:
the store ends up as the original minus the expired entries among the
processed keys, each processed slot of the result vector holds what `get`
would have returned against the original store, and other slots are
untouched. -/
theorem mgetRun_spec (hash : Str → Nat) (st0 : ShardStore) (now : Int)
    (keys : List Str) :
    ∀ (idxs : List Nat) (done : List Str) (st : ShardStore) (res : List Str),
      idxs.Nodup →
      (∀ i ∈ idxs, i < keys.length) →
      st.length = NUM_SHARDS →
      res.length = keys.length →
      mgetInv hash st0 now done st →
      ((idxs.foldl (mgetStep hash now keys) (st, res)).1.length = NUM_SHARDS) ∧
      ((idxs.foldl (mgetStep hash now keys) (st, res)).2.length = keys.length) ∧
      mgetInv hash st0 now (done ++ idxs.map (fun i => keys.getD i []))
        (idxs.foldl (mgetStep hash now keys) (st, res)).1 ∧
      (∀ i ∈ idxs, (idxs.foldl (mgetStep hash now keys) (st, res)).2.getD i [] =
        getResultOf hash st0 now (keys.getD i [])) ∧
      (∀ j, j ∉ idxs → (idxs.foldl (mgetStep hash now keys) (st, res)).2.getD j [] =
        res.getD j []) := by
  intro idxs
  induction idxs with
  | nil =>
    intro done st res _ _ hlen hres hinv
    refine ⟨hlen, hres, ?_, by simp, fun j _ => rfl⟩
    simpa using hinv
  | cons i rest ih =>
    intro done st res hnd hlt hlen hres hinv
    obtain ⟨hnoti, hndrest⟩ := List.nodup_cons.mp hnd
    obtain ⟨h1, h2, h3⟩ :=
      mgetStep_spec hash st0 now keys done st res i hlen (hlt i (by simp)) hinv
    have hilt : i < res.length := by rw [hres]; exact hlt i (by simp)
    have hres2 : (mgetStep hash now keys (st, res) i).2.length = keys.length := by
      rw [h3, List.length_set]; exact hres
    obtain ⟨g1, g2, g3, g4, g5⟩ :=
      ih (done ++ [keys.getD i []]) (mgetStep hash now keys (st, res) i).1
        (mgetStep hash now keys (st, res) i).2 hndrest
        (fun i2 hi2 => hlt i2 (by simp [hi2])) h1 hres2 h2
    have hfold : (i :: rest).foldl (mgetStep hash now keys) (st, res) =
        rest.foldl (mgetStep hash now keys)
          ((mgetStep hash now keys (st, res) i).1,
           (mgetStep hash now keys (st, res) i).2) := by
      rw [List.foldl_cons]
    rw [hfold]
    refine ⟨g1, g2, ?_, ?_, ?_⟩
    · have happ : (done ++ [keys.getD i []]) ++ rest.map (fun i2 => keys.getD i2 []) =
          done ++ (i :: rest).map (fun i2 => keys.getD i2 []) := by
        simp
      rw [← happ]
      exact g3
    · intro i2 hi2
      rcases List.mem_cons.mp hi2 with hii | hii
      · subst hii
        rw [g5 i2 hnoti, h3, getD_set_self _ _ _ _ hilt]
      · exact g4 i2 hii
    · intro j hj
      have hjrest : j ∉ rest := fun hmem => hj (List.mem_cons_of_mem _ hmem)
      have hji : i ≠ j := fun hij => hj (hij ▸ List.mem_cons_self i rest)
      rw [g5 j hjrest, h3, getD_set_ne _ _ _ _ _ hji]

/-! ## Claim C3: MGET -/

/-- C3.  `mget(k1..kn)` returns exactly `n` results, the i-th being what
`get(ki)` would return against the same store at the same instant; expired
entries among the requested keys are erased in place and nothing else
changes; the shard walk is duplicate-free, visits shards in an order drawn
from the keys' shards, covers exactly the shards the keys hash to; and one
latency sample is recorded for the whole call. -/
theorem c3_mget (hash : Str → Nat) (st : ShardStore) (met : Metrics)
    (keys : List Str) (now : Int) (d : Nat) (hlen : st.length = NUM_SHARDS) :
    (kvMget hash st met keys now d).1.length = keys.length ∧
    (∀ i, i < keys.length →
      (kvMget hash st met keys now d).1.getD i [] =
        (kvGet hash st met (keys.getD i []) now d).1) ∧
    (∀ k, storeLookup hash (kvMget hash st met keys now d).2.1 k =
      if k ∈ keys ∧ hasExpired hash st now k = true then none
      else storeLookup hash st k) ∧
    (mgetShardOrder hash keys).Nodup ∧
    List.Sublist (mgetShardOrder hash keys) (keys.map (get_shard_index hash)) ∧
    (∀ s, s ∈ mgetShardOrder hash keys ↔ s ∈ keys.map (get_shard_index hash)) ∧
    (kvMget hash st met keys now d).2.2 = met.record_latency d := by
  have hkv : kvMget hash st met keys now d =
      ((((mgetShardOrder hash keys).flatMap (shardGroup hash keys)).foldl
          (mgetStep hash now keys) (st, List.replicate keys.length [])).2,
       (((mgetShardOrder hash keys).flatMap (shardGroup hash keys)).foldl
          (mgetStep hash now keys) (st, List.replicate keys.length [])).1,
       met.record_latency d) := by
    unfold kvMget
    rw [foldl_flatMap]
  have hJlt : ∀ i ∈ (mgetShardOrder hash keys).flatMap (shardGroup hash keys),
      i < keys.length := by
    intro i hi
    obtain ⟨s, _, hig⟩ := List.mem_flatMap.mp hi
    exact ((mem_shardGroup hash keys s i).mp hig).1
  have hJnd : ((mgetShardOrder hash keys).flatMap (shardGroup hash keys)).Nodup := by
    refine List.nodup_flatMap.mpr ⟨fun s _ => nodup_shardGroup hash keys s, ?_⟩
    have hond : (mgetShardOrder hash keys).Nodup := nodup_shardOrderAux _ _
    refine hond.imp ?_
    intro s1 s2 hne i hi1 hi2
    exact hne (((mem_shardGroup hash keys s1 i).mp hi1).2.symm.trans
      ((mem_shardGroup hash keys s2 i).mp hi2).2)
  have hJfull : ∀ i, i < keys.length →
      i ∈ (mgetShardOrder hash keys).flatMap (shardGroup hash keys) := by
    intro i hi
    refine List.mem_flatMap.mpr ⟨get_shard_index hash (keys.getD i []), ?_, ?_⟩
    · unfold mgetShardOrder
      refine (mem_shardOrderAux _ _ _).mpr ⟨?_, by simp⟩
      refine List.mem_map.mpr ⟨keys.getD i [], ?_, rfl⟩
      rw [List.getD_eq_getElem?_getD, List.getElem?_eq_getElem hi]
      exact List.getElem_mem hi
    · exact (mem_shardGroup hash keys _ i).mpr ⟨hi, rfl⟩
  have hmapmem : ∀ k,
      (k ∈ ((mgetShardOrder hash keys).flatMap (shardGroup hash keys)).map
          (fun i => keys.getD i [])) ↔ k ∈ keys := by
    intro k
    constructor
    · intro hk
      obtain ⟨i, hiJ, hik⟩ := List.mem_map.mp hk
      have hi := hJlt i hiJ
      rw [← hik, List.getD_eq_getElem?_getD, List.getElem?_eq_getElem hi]
      exact List.getElem_mem hi
    · intro hk
      obtain ⟨i, hi, hik⟩ := List.mem_iff_getElem.mp hk
      refine List.mem_map.mpr ⟨i, hJfull i hi, ?_⟩
      rw [List.getD_eq_getElem?_getD, List.getElem?_eq_getElem hi]
      exact hik
  obtain ⟨g1, g2, g3, g4, g5⟩ :=
    mgetRun_spec hash st now keys
      ((mgetShardOrder hash keys).flatMap (shardGroup hash keys)) [] st
      (List.replicate keys.length []) hJnd hJlt hlen (by simp)
      (fun k => by simp)
  refine ⟨?_, ?_, ?_, nodup_shardOrderAux _ _, shardOrderAux_sublist _ _, ?_, ?_⟩
  · rw [hkv]; exact g2
  · intro i hi
    rw [hkv, kvGet_fst]
    exact g4 i (hJfull i hi)
  · intro k
    rw [hkv]
    have := g3 k
    simp only [List.nil_append] at this
    rw [this]
    by_cases hmem : k ∈ keys
    · by_cases hx : hasExpired hash st now k = true
      · rw [if_pos ⟨(hmapmem k).mpr hmem, hx⟩, if_pos ⟨hmem, hx⟩]
      · rw [if_neg (fun hc => hx hc.2), if_neg (fun hc => hx hc.2)]
    · rw [if_neg (fun hc => hmem ((hmapmem k).mp hc.1)),
          if_neg (fun hc => hmem hc.1)]
  · intro s
    unfold mgetShardOrder
    rw [mem_shardOrderAux]
    simp
  · rw [hkv]

/-- Witness for C3 at a concrete input. -/
theorem c3_mget_witness :
    emptyStore.length = NUM_SHARDS ∧
    ((kvMget hashZero emptyStore {} [str "a", str "b"] 0 4).1.length =
        ([str "a", str "b"] : List Str).length ∧
    (∀ i, i < ([str "a", str "b"] : List Str).length →
      (kvMget hashZero emptyStore {} [str "a", str "b"] 0 4).1.getD i [] =
        (kvGet hashZero emptyStore {} (([str "a", str "b"] : List Str).getD i []) 0 4).1) ∧
    (∀ k, storeLookup hashZero (kvMget hashZero emptyStore {} [str "a", str "b"] 0 4).2.1 k =
      if k ∈ ([str "a", str "b"] : List Str) ∧ hasExpired hashZero emptyStore 0 k = true
      then none else storeLookup hashZero emptyStore k) ∧
    (mgetShardOrder hashZero [str "a", str "b"]).Nodup ∧
    List.Sublist (mgetShardOrder hashZero [str "a", str "b"])
      (([str "a", str "b"] : List Str).map (get_shard_index hashZero)) ∧
    (∀ s, s ∈ mgetShardOrder hashZero [str "a", str "b"] ↔
      s ∈ ([str "a", str "b"] : List Str).map (get_shard_index hashZero)) ∧
    (kvMget hashZero emptyStore {} [str "a", str "b"] 0 4).2.2 =
      Metrics.record_latency {} 4) :=
  ⟨by decide, c3_mget hashZero emptyStore {} [str "a", str "b"] 0 4 (by decide)⟩

/-! ## Claim C2: SET with TTL followed by GET -/

/-- C2.  `set(k, v, t)` with `t > 0` stores `(v, now1 + t*1000)` and with
`t = 0` stores `(v, 0)`; a later `get(k)` with no intervening write returns
`v` exactly when the entry is not expired — expired meaning
`expiry_at_ms ≠ 0 ∧ now2 > expiry_at_ms` — and `(nil)` otherwise; in
particular a get at exactly `now2 = expiry_at_ms` still returns `v`, and a
`t = 0` entry never expires. -/
theorem c2_set_then_get (hash : Str → Nat) (st : ShardStore) (j : List Str)
    (jOpen : Bool) (k v : Str) (t now1 now2 : Int)
    (hlen : st.length = NUM_SHARDS) (ht : 0 ≤ t) :
    storeLookup hash (kvSet hash st j jOpen k v t now1).1 k =
      some ⟨v, if 0 < t then now1 + t * 1000 else 0⟩ ∧
    (∀ met d, (kvGet hash (kvSet hash st j jOpen k v t now1).1 met k now2 d).1 =
      if (if 0 < t then now1 + t * 1000 else 0) ≠ 0 ∧
         (if 0 < t then now1 + t * 1000 else 0) < now2 then nilStr else v) ∧
    (∀ met d, 0 < t → now2 = now1 + t * 1000 →
      (kvGet hash (kvSet hash st j jOpen k v t now1).1 met k now2 d).1 = v) ∧
    (∀ met d, t = 0 →
      (kvGet hash (kvSet hash st j jOpen k v t now1).1 met k now2 d).1 = v) := by
  have hlook : storeLookup hash (kvSet hash st j jOpen k v t now1).1 k =
      some ⟨v, if 0 < t then now1 + t * 1000 else 0⟩ := by
    show storeLookup hash (storeSet hash st k _) k = _
    rw [storeLookup_storeSet hash st k k _ hlen, if_pos rfl]
  have hres : ∀ met d, (kvGet hash (kvSet hash st j jOpen k v t now1).1 met k now2 d).1 =
      if (if 0 < t then now1 + t * 1000 else 0) ≠ 0 ∧
         (if 0 < t then now1 + t * 1000 else 0) < now2 then nilStr else v := by
    intro met d
    rw [kvGet_fst, getResultOf, hlook]
    by_cases h0 : (if 0 < t then now1 + t * 1000 else 0) = 0 <;>
      by_cases h2 : (if 0 < t then now1 + t * 1000 else 0) < now2 <;>
        simp [CacheEntry.is_expired, h0, h2]
  refine ⟨hlook, hres, ?_, ?_⟩
  · intro met d htpos hnow
    rw [hres met d, if_pos htpos]
    subst hnow
    simp
  · intro met d ht0
    subst ht0
    rw [hres met d]
    simp

/-- Witness for C2 at a concrete input. -/
theorem c2_set_then_get_witness :
    (emptyStore.length = NUM_SHARDS ∧ (0 : Int) ≤ 5) ∧
    (storeLookup hashZero (kvSet hashZero emptyStore [] true (str "k") (str "v") 5 100).1 (str "k") =
      some ⟨str "v", if (0 : Int) < 5 then 100 + 5 * 1000 else 0⟩ ∧
    (∀ met d, (kvGet hashZero (kvSet hashZero emptyStore [] true (str "k") (str "v") 5 100).1 met (str "k") 6000 d).1 =
      if (if (0 : Int) < 5 then 100 + 5 * 1000 else 0) ≠ 0 ∧
         (if (0 : Int) < 5 then 100 + 5 * 1000 else 0) < 6000 then nilStr else str "v") ∧
    (∀ met d, (0 : Int) < 5 → (6000 : Int) = 100 + 5 * 1000 →
      (kvGet hashZero (kvSet hashZero emptyStore [] true (str "k") (str "v") 5 100).1 met (str "k") 6000 d).1 = str "v") ∧
    (∀ met d, (5 : Int) = 0 →
      (kvGet hashZero (kvSet hashZero emptyStore [] true (str "k") (str "v") 5 100).1 met (str "k") 6000 d).1 = str "v")) :=
  ⟨⟨by decide, by decide⟩,
   c2_set_then_get hashZero emptyStore [] true (str "k") (str "v") 5 100 6000
     (by decide) (by decide)⟩

/-! ## Claim C6: the effects of GET -/

/-- C6.  `get(k)`: on an absent key it increments the miss counter, records
a latency sample and returns `(nil)`, leaving the store as it was; on a
present but expired entry it erases exactly that entry, increments the miss
counter, records latency and returns `(nil)`; on a present live entry it
increments the hit counter, records latency and returns the value with the
store untouched.  Entries of other keys are never created, modified or
removed, and the background flusher iteration (flush + possible compaction)
never changes the in-memory store either. -/
theorem c6_get_effects (hash : Str → Nat) (st : ShardStore) (met : Metrics)
    (k : Str) (now : Int) (d : Nat) (hlen : st.length = NUM_SHARDS) :
    (storeLookup hash st k = none →
      kvGet hash st met k now d =
        (nilStr, st,
         ({ met with total_requests := met.total_requests + 1,
                     cache_misses := met.cache_misses + 1 } : Metrics).record_latency d)) ∧
    (∀ e, storeLookup hash st k = some e → e.is_expired now = true →
      kvGet hash st met k now d =
        (nilStr, storeErase hash st k,
         ({ met with total_requests := met.total_requests + 1,
                     cache_misses := met.cache_misses + 1 } : Metrics).record_latency d) ∧
      storeLookup hash (kvGet hash st met k now d).2.1 k = none) ∧
    (∀ e, storeLookup hash st k = some e → e.is_expired now = false →
      kvGet hash st met k now d =
        (e.value, st,
         ({ met with total_requests := met.total_requests + 1,
                     cache_hits := met.cache_hits + 1 } : Metrics).record_latency d)) ∧
    (∀ k', k' ≠ k →
      storeLookup hash (kvGet hash st met k now d).2.1 k' = storeLookup hash st k') ∧
    (∀ (st2 : ShardStore) (j2 : List Str) (now2 : Int) (b : Bool) (n : Nat),
      (flusherIteration st2 j2 now2 b n).1 = st2) := by
  refine ⟨?_, ?_, ?_, ?_, ?_⟩
  · intro h; simp only [kvGet, h]
  · intro e he hexp
    have heq : kvGet hash st met k now d =
        (nilStr, storeErase hash st k,
         ({ met with total_requests := met.total_requests + 1,
                     cache_misses := met.cache_misses + 1 } : Metrics).record_latency d) := by
      simp only [kvGet, he, hexp, if_true]
    refine ⟨heq, ?_⟩
    rw [heq]
    exact (storeLookup_storeErase hash st k k hlen).trans (if_pos rfl)
  · intro e he hexp
    simp only [kvGet, he, hexp, Bool.false_eq_true, if_false]
  · intro k' hk'
    match he : storeLookup hash st k with
    | none => simp only [kvGet, he]
    | some e =>
      by_cases hexp : e.is_expired now = true
      · simp only [kvGet, he, hexp, if_true]
        exact (storeLookup_storeErase hash st k k' hlen).trans (if_neg hk')
      · simp [kvGet, he, hexp]
  · intro st2 j2 now2 b n
    unfold flusherIteration compactFull
    by_cases hc : b = true ∧ COMPACTION_THRESHOLD < n <;> simp [hc]

/-- Witness for C6 at a concrete input. -/
theorem c6_get_effects_witness :
    emptyStore.length = NUM_SHARDS ∧
    ((storeLookup hashZero emptyStore (str "k") = none →
      kvGet hashZero emptyStore {} (str "k") 0 3 =
        (nilStr, emptyStore,
         ({ total_requests := 1, cache_misses := 1 } : Metrics).record_latency 3)) ∧
    (∀ e, storeLookup hashZero emptyStore (str "k") = some e → e.is_expired 0 = true →
      kvGet hashZero emptyStore {} (str "k") 0 3 =
        (nilStr, storeErase hashZero emptyStore (str "k"),
         ({ total_requests := 1, cache_misses := 1 } : Metrics).record_latency 3) ∧
      storeLookup hashZero (kvGet hashZero emptyStore {} (str "k") 0 3).2.1 (str "k") = none) ∧
    (∀ e, storeLookup hashZero emptyStore (str "k") = some e → e.is_expired 0 = false →
      kvGet hashZero emptyStore {} (str "k") 0 3 =
        (e.value, emptyStore,
         ({ total_requests := 1, cache_hits := 1 } : Metrics).record_latency 3)) ∧
    (∀ k', k' ≠ str "k" →
      storeLookup hashZero (kvGet hashZero emptyStore {} (str "k") 0 3).2.1 k' =
        storeLookup hashZero emptyStore k') ∧
    (∀ (st2 : ShardStore) (j2 : List Str) (now2 : Int) (b : Bool) (n : Nat),
      (flusherIteration st2 j2 now2 b n).1 = st2)) :=
  ⟨by decide, c6_get_effects hashZero emptyStore {} (str "k") 0 3 (by decide)⟩

/-! ## Claim C7: DEL erases, journals iff present, and is idempotent -/

/-- C7.  With the journal open, `del(k)` erases `k` and appends `DEL <k>`
to the journal exactly when an entry existed; a second `del(k)` with no
intervening SET changes neither the store nor the journal (idempotence);
and the executor answers `OK\n` for DEL whether or not the key existed. -/
theorem c7_del (hash : Str → Nat) (st : ShardStore) (j : List Str) (k : Str)
    (hlen : st.length = NUM_SHARDS) :
    ((kvDel hash st j true k).1 = (storeLookup hash st k).isSome) ∧
    (storeLookup hash (kvDel hash st j true k).2.1 k = none) ∧
    (∀ k', k' ≠ k →
      storeLookup hash (kvDel hash st j true k).2.1 k' = storeLookup hash st k') ∧
    ((kvDel hash st j true k).2.2 =
      if (storeLookup hash st k).isSome then j ++ [renderDelLine k] else j) ∧
    (kvDel hash (kvDel hash st j true k).2.1 (kvDel hash st j true k).2.2 true k =
      (false, (kvDel hash st j true k).2.1, (kvDel hash st j true k).2.2)) ∧
    (∀ (s : SysState) (now : Int) (d : Nat),
      (kvExecute hash s { type := .DEL, key := k } now d).2 = str "OK\n") := by
  have herased : storeLookup hash (storeErase hash st k) k = none :=
    (storeLookup_storeErase hash st k k hlen).trans (if_pos rfl)
  refine ⟨rfl, herased, ?_, ?_, ?_, ?_⟩
  · intro k' hk'
    exact (storeLookup_storeErase hash st k k' hlen).trans (if_neg hk')
  · by_cases h : (storeLookup hash st k).isSome = true <;> simp [kvDel, h]
  · simp only [kvDel, herased, Option.isSome_none, Bool.false_eq_true, and_false,
      if_false, storeErase_storeErase hash st k hlen]
  · intro s now d
    rfl

/-! ## Claim C4: the size-triggered batch flush -/

/-- C4 (bug evaluation).  `add_to_batch` holds `batch_mtx_` for the whole
tail of the function, and the size trigger calls `flush_to_store` from
inside that scope; `flush_to_store` locks the same non-recursive
`std::mutex` again, so the 50th buffered write self-deadlocks (`none`)
instead of performing the claimed swap / release / `record_batch` / apply
sequence.  Below the threshold the command is simply buffered, and a flush
entered without the lock held (the timer path) does not deadlock. -/
theorem c4_size_trigger_deadlocks :
    add_to_batch hashZero
      (List.replicate 49 { type := .SET, key := str "a", value := str "b" })
      initState { type := .SET, key := str "a", value := str "b" } 0 0 = none ∧
    add_to_batch hashZero
      (List.replicate 10 { type := .SET, key := str "a", value := str "b" })
      initState { type := .SET, key := str "a", value := str "b" } 0 0 =
      some (List.replicate 11 { type := .SET, key := str "a", value := str "b" },
            initState) ∧
    flush_to_store hashZero true
      (List.replicate 50 { type := .SET, key := str "a", value := str "b" })
      initState 0 0 = none ∧
    (flush_to_store hashZero false
      (List.replicate 50 { type := .SET, key := str "a", value := str "b" })
      initState 0 0).isSome = true := by
  refine ⟨by decide, by decide, by decide, ?_⟩
  decide

/-! ## Claim C5: journal replay tolerance -/

/-- C5 (bug evaluation).  Replay does skip empty lines and unknown or
syntactically alien lines whose numeric fields still parse, applies
`SET k v EX s` with `expiry_at_ms = replay_now + s*1000`, and applies DEL —
but a line whose `EX` field is not an integer, or a `*`-framed line whose
length field is not an integer, makes `std::stoi` throw; the exception
escapes `load_from_disk` (`none`), aborting replay instead of skipping the
line as the claim states. -/
theorem c5_replay_abort_on_malformed :
    load_from_disk hashZero 0 emptyStore [str "SET k v EX x"] = none ∧
    load_from_disk hashZero 0 emptyStore [str "*x"] = none ∧
    (load_from_disk hashZero 1000 emptyStore
        [[], str "*0", str "GARBAGE junk", str "SET k v EX 5", str "DEL q"]).map
        (fun st => storeLookup hashZero st (str "k")) =
      some (some ⟨str "v", 6000⟩) := by
  refine ⟨by decide, by decide, ?_⟩
  decide

/-! ## Claim C8: latency recording -/

theorem bucketsLE_refl (h : LatencyHistogram) : bucketsLE h h := by
  unfold bucketsLE; omega

theorem bucketsLE_trans {a b c : LatencyHistogram}
    (h1 : bucketsLE a b) (h2 : bucketsLE b c) : bucketsLE a c := by
  unfold bucketsLE at *; omega

theorem bucketsLE_record (h : LatencyHistogram) (micros : Nat) :
    bucketsLE h (h.record micros) := by
  unfold LatencyHistogram.record bucketsLE
  by_cases h1 : micros / 1000 < 1
  · simp [h1]
  by_cases h5 : micros / 1000 < 5
  · simp [h1, h5]
  by_cases h10 : micros / 1000 < 10
  · simp [h1, h5, h10]
  by_cases h50 : micros / 1000 < 50
  · simp [h1, h5, h10, h50]
  by_cases h100 : micros / 1000 < 100
  · simp [h1, h5, h10, h50, h100]
  · simp [h1, h5, h10, h50, h100]

theorem bucketsLE_record_latency (m : Metrics) (d : Nat) :
    bucketsLE m.latency_histogram (m.record_latency d).latency_histogram :=
  bucketsLE_record m.latency_histogram d

theorem bucketsLE_kvGet (hash : Str → Nat) (st : ShardStore) (met : Metrics)
    (k : Str) (now : Int) (d : Nat) :
    bucketsLE met.latency_histogram (kvGet hash st met k now d).2.2.latency_histogram := by
  unfold kvGet
  match storeLookup hash st k with
  | none => exact bucketsLE_record _ d
  | some e =>
    by_cases hexp : e.is_expired now = true <;> simp only [hexp, if_true, if_false] <;>
      exact bucketsLE_record _ d

theorem bucketsLE_execute (hash : Str → Nat) (s : SysState) (cmd : ParsedCommand)
    (now : Int) (d : Nat) :
    bucketsLE s.met.latency_histogram
      ((kvExecute hash s cmd now d).1).met.latency_histogram := by
  unfold kvExecute
  by_cases hv : cmd.valid = false
  · simp [hv]; exact bucketsLE_refl _
  · simp only [hv, if_false]
    match cmd.type with
    | .SET => exact bucketsLE_refl _
    | .GET => exact bucketsLE_kvGet hash s.store s.met cmd.key now d
    | .MGET => exact bucketsLE_record _ d
    | .DEL => exact bucketsLE_refl _
    | .COMPACT => exact bucketsLE_refl _
    | .STATS => exact bucketsLE_refl _
    | .UNKNOWN => exact bucketsLE_refl _

theorem bucketsLE_applyOps (hash : Str → Nat) (s : SysState) (ops : List Op) :
    bucketsLE s.met.latency_histogram (applyOps hash s ops).met.latency_histogram := by
  induction ops generalizing s with
  | nil => exact bucketsLE_refl _
  | cons op rest ih =>
    exact bucketsLE_trans (bucketsLE_execute hash s op.cmd op.now op.d)
      (ih (kvExecute hash s op.cmd op.now op.d).1)

/-- C8.  `record(micros)`: the sample ring never exceeds its 10,000 cap —
below the cap the sample is appended, at the cap the oldest is evicted —
and exactly the bucket selected by `micros/1000` against the boundaries
<1, <5, <10, <50, <100, ≥100 is incremented by one; no public operation
ever decrements a bucket, so bucket counts are monotone non-decreasing
across consecutive snapshots. -/
theorem c8_record_latency (h : LatencyHistogram) (micros : Nat)
    (hcap : h.latency_samples.length ≤ MAX_SAMPLES) :
    ((h.record micros).latency_samples.length ≤ MAX_SAMPLES) ∧
    (h.latency_samples.length < MAX_SAMPLES →
      (h.record micros).latency_samples = h.latency_samples ++ [micros]) ∧
    (h.latency_samples.length = MAX_SAMPLES →
      (h.record micros).latency_samples = h.latency_samples.tail ++ [micros]) ∧
    ((h.record micros).bucketList =
      h.bucketList.set (bucketIndexOf micros)
        (h.bucketList.getD (bucketIndexOf micros) 0 + 1)) ∧
    (∀ (hash : Str → Nat) (s : SysState) (ops : List Op),
      bucketsLE s.met.latency_histogram (applyOps hash s ops).met.latency_histogram) := by
  have hsamp : (h.record micros).latency_samples =
      (if MAX_SAMPLES < (h.latency_samples ++ [micros]).length
       then (h.latency_samples ++ [micros]).tail
       else h.latency_samples ++ [micros]) := by
    unfold LatencyHistogram.record
    by_cases h1 : micros / 1000 < 1
    · simp [h1]
    by_cases h5 : micros / 1000 < 5
    · simp [h1, h5]
    by_cases h10 : micros / 1000 < 10
    · simp [h1, h5, h10]
    by_cases h50 : micros / 1000 < 50
    · simp [h1, h5, h10, h50]
    by_cases h100 : micros / 1000 < 100
    · simp [h1, h5, h10, h50, h100]
    · simp [h1, h5, h10, h50, h100]
  refine ⟨?_, ?_, ?_, ?_, bucketsLE_applyOps⟩
  · rw [hsamp]
    by_cases hlt : MAX_SAMPLES < (h.latency_samples ++ [micros]).length
    · rw [if_pos hlt]
      simp only [List.length_tail, List.length_append, List.length_cons,
        List.length_nil]
      omega
    · rw [if_neg hlt]
      simp only [List.length_append, List.length_cons, List.length_nil] at hlt ⊢
      omega
  · intro hlt
    rw [hsamp, if_neg]
    simp only [List.length_append, List.length_cons, List.length_nil]
    omega
  · intro heq
    rw [hsamp, if_pos]
    · cases hl : h.latency_samples with
      | nil => rw [hl] at heq; simp [MAX_SAMPLES] at heq
      | cons a as => simp
    · simp only [List.length_append, List.length_cons, List.length_nil]
      omega
  · unfold LatencyHistogram.record bucketIndexOf LatencyHistogram.bucketList
    by_cases h1 : micros / 1000 < 1
    · simp [h1]
    by_cases h5 : micros / 1000 < 5
    · simp [h1, h5]
    by_cases h10 : micros / 1000 < 10
    · simp [h1, h5, h10]
    by_cases h50 : micros / 1000 < 50
    · simp [h1, h5, h10, h50]
    by_cases h100 : micros / 1000 < 100
    · simp [h1, h5, h10, h50, h100]
    · simp [h1, h5, h10, h50, h100]

/-- Witness for C8 at a concrete input. -/
theorem c8_record_latency_witness :
    (({ latency_samples := [7] } : LatencyHistogram).latency_samples.length ≤ MAX_SAMPLES) ∧
    (((({ latency_samples := [7] } : LatencyHistogram).record 2500).latency_samples.length ≤ MAX_SAMPLES) ∧
     (({ latency_samples := [7] } : LatencyHistogram).latency_samples.length < MAX_SAMPLES →
       (({ latency_samples := [7] } : LatencyHistogram).record 2500).latency_samples =
         ({ latency_samples := [7] } : LatencyHistogram).latency_samples ++ [2500]) ∧
     (({ latency_samples := [7] } : LatencyHistogram).latency_samples.length = MAX_SAMPLES →
       (({ latency_samples := [7] } : LatencyHistogram).record 2500).latency_samples =
         ({ latency_samples := [7] } : LatencyHistogram).latency_samples.tail ++ [2500]) ∧
     ((({ latency_samples := [7] } : LatencyHistogram).record 2500).bucketList =
       ({ latency_samples := [7] } : LatencyHistogram).bucketList.set (bucketIndexOf 2500)
         (({ latency_samples := [7] } : LatencyHistogram).bucketList.getD (bucketIndexOf 2500) 0 + 1)) ∧
     (∀ (hash : Str → Nat) (s : SysState) (ops : List Op),
       bucketsLE s.met.latency_histogram (applyOps hash s ops).met.latency_histogram)) :=
  ⟨by decide, c8_record_latency { latency_samples := [7] } 2500 (by decide)⟩

/-! ## Claim C9: percentile formula and monotonicity -/

/-- The clamped index `percentile` uses, rewritten as a `min`. -/
theorem percentile_index_min (n i : Nat) (hn : 1 ≤ n) :
    (if n ≤ i then n - 1 else i) = min i (n - 1) := by
  by_cases h : n ≤ i
  · rw [if_pos h, Nat.min_eq_right]; omega
  · rw [if_neg h, Nat.min_eq_left]; omega

/-- Indexing an ascending `insertionSort` is monotone. -/
theorem sorted_getD_mono (l : List Nat) {i j : Nat}
    (hij : i ≤ j) (hj : j < (List.insertionSort (· ≤ ·) l).length) :
    (List.insertionSort (· ≤ ·) l).getD i 0 ≤ (List.insertionSort (· ≤ ·) l).getD j 0 := by
  have hi : i < (List.insertionSort (· ≤ ·) l).length := lt_of_le_of_lt hij hj
  have hs := List.sorted_insertionSort (· ≤ ·) l
  have hrel := hs.rel_get_of_le (a := ⟨i, hi⟩) (b := ⟨j, hj⟩) hij
  rw [List.getD_eq_getElem?_getD, List.getD_eq_getElem?_getD,
      List.getElem?_eq_getElem hi, List.getElem?_eq_getElem hj]
  simpa using hrel

theorem length_insertionSort (l : List Nat) :
    (List.insertionSort (· ≤ ·) l).length = l.length :=
  (List.perm_insertionSort (· ≤ ·) l).length_eq

/-- `percentile` is monotone in the rank (any ring contents). -/
theorem percentile_mono (h : LatencyHistogram) {p q : ℚ} (hpq : p ≤ q) :
    h.percentile p ≤ h.percentile q := by
  unfold LatencyHistogram.percentile
  by_cases hemp : h.latency_samples.isEmpty
  · simp [hemp]
  · simp only [hemp, if_false]
    have hn : 1 ≤ h.latency_samples.length := by
      cases hl : h.latency_samples with
      | nil => rw [hl] at hemp; simp at hemp
      | cons a as => simp
    have hlen := length_insertionSort h.latency_samples
    have hip : (⌊p * (h.latency_samples.length : ℚ)⌋).toNat ≤
        (⌊q * (h.latency_samples.length : ℚ)⌋).toNat := by
      apply Int.toNat_le_toNat
      apply Int.floor_le_floor
      exact mul_le_mul_of_nonneg_right hpq (by positivity)
    rw [hlen, percentile_index_min _ _ hn, percentile_index_min _ _ hn]
    apply sorted_getD_mono
    · exact min_le_min hip le_rfl
    · rw [hlen]; omega

/-- C9.  For a ring with `n ≥ 1` samples, `percentile(p)` is the element at
index `min(⌊p·n⌋, n-1)` of the ascending sort of a copy of the ring;
percentile is monotone in the rank, so every snapshot satisfies
`p50 ≤ p95 ≤ p99` (the ranks `to_json` uses), whatever the ring holds. -/
theorem c9_percentile (h : LatencyHistogram) (p q : ℚ)
    (hn : 1 ≤ h.latency_samples.length) (hpq : p ≤ q) :
    (h.percentile p =
      (List.insertionSort (· ≤ ·) h.latency_samples).getD
        (min (⌊p * (h.latency_samples.length : ℚ)⌋).toNat
             (h.latency_samples.length - 1)) 0) ∧
    h.percentile p ≤ h.percentile q ∧
    (∀ h2 : LatencyHistogram,
      h2.percentile (50 / 100) ≤ h2.percentile (95 / 100) ∧
      h2.percentile (95 / 100) ≤ h2.percentile (99 / 100)) := by
  refine ⟨?_, percentile_mono h hpq, ?_⟩
  · unfold LatencyHistogram.percentile
    have hemp : ¬ h.latency_samples.isEmpty := by
      cases hl : h.latency_samples with
      | nil => rw [hl] at hn; simp at hn
      | cons a as => simp
    simp only [hemp, if_false]
    rw [length_insertionSort, percentile_index_min _ _ hn]
    simp
  · intro h2
    exact ⟨percentile_mono h2 (by norm_num), percentile_mono h2 (by norm_num)⟩

/-- Witness for C9 at a concrete input. -/
theorem c9_percentile_witness :
    (1 ≤ ({ latency_samples := [5, 1, 9] } : LatencyHistogram).latency_samples.length ∧
     (1 / 2 : ℚ) ≤ 95 / 100) ∧
    ((({ latency_samples := [5, 1, 9] } : LatencyHistogram).percentile (1 / 2) =
      (List.insertionSort (· ≤ ·)
          ({ latency_samples := [5, 1, 9] } : LatencyHistogram).latency_samples).getD
        (min (⌊(1 / 2 : ℚ) * (({ latency_samples := [5, 1, 9] } : LatencyHistogram).latency_samples.length : ℚ)⌋).toNat
             (({ latency_samples := [5, 1, 9] } : LatencyHistogram).latency_samples.length - 1)) 0) ∧
    ({ latency_samples := [5, 1, 9] } : LatencyHistogram).percentile (1 / 2) ≤
      ({ latency_samples := [5, 1, 9] } : LatencyHistogram).percentile (95 / 100) ∧
    (∀ h2 : LatencyHistogram,
      h2.percentile (50 / 100) ≤ h2.percentile (95 / 100) ∧
      h2.percentile (95 / 100) ≤ h2.percentile (99 / 100))) :=
  ⟨⟨by decide, by norm_num⟩,
   c9_percentile { latency_samples := [5, 1, 9] } (1 / 2) (95 / 100)
     (by decide) (by norm_num)⟩

/-! ## Claim C10: cache_hits + cache_misses = total_requests -/

theorem record_latency_counters (m : Metrics) (d : Nat) :
    (m.record_latency d).cache_hits = m.cache_hits ∧
    (m.record_latency d).cache_misses = m.cache_misses ∧
    (m.record_latency d).total_requests = m.total_requests :=
  ⟨rfl, rfl, rfl⟩

theorem kvGet_metrics (hash : Str → Nat) (st : ShardStore) (met : Metrics)
    (k : Str) (now : Int) (d : Nat) :
    (kvGet hash st met k now d).2.2.total_requests = met.total_requests + 1 ∧
    (((kvGet hash st met k now d).2.2.cache_hits = met.cache_hits + 1 ∧
      (kvGet hash st met k now d).2.2.cache_misses = met.cache_misses) ∨
     ((kvGet hash st met k now d).2.2.cache_hits = met.cache_hits ∧
      (kvGet hash st met k now d).2.2.cache_misses = met.cache_misses + 1)) := by
  unfold kvGet
  match storeLookup hash st k with
  | none => exact ⟨rfl, Or.inr ⟨rfl, rfl⟩⟩
  | some e =>
    by_cases hexp : e.is_expired now = true
    · simp only [hexp, if_true]
      exact ⟨rfl, Or.inr ⟨rfl, rfl⟩⟩
    · simp only [hexp, if_false]
      exact ⟨rfl, Or.inl ⟨rfl, rfl⟩⟩

theorem counters_execute_ne_get (hash : Str → Nat) (s : SysState)
    (cmd : ParsedCommand) (now : Int) (d : Nat) (h : cmd.type ≠ .GET) :
    (kvExecute hash s cmd now d).1.met.cache_hits = s.met.cache_hits ∧
    (kvExecute hash s cmd now d).1.met.cache_misses = s.met.cache_misses ∧
    (kvExecute hash s cmd now d).1.met.total_requests = s.met.total_requests := by
  unfold kvExecute
  by_cases hv : cmd.valid = false
  · simp [hv]
  · simp only [hv, if_false]
    match htype : cmd.type with
    | .SET => exact ⟨rfl, rfl, rfl⟩
    | .GET => exact absurd htype h
    | .MGET => exact ⟨rfl, rfl, rfl⟩
    | .DEL => exact ⟨rfl, rfl, rfl⟩
    | .COMPACT => exact ⟨rfl, rfl, rfl⟩
    | .STATS => exact ⟨rfl, rfl, rfl⟩
    | .UNKNOWN => exact ⟨rfl, rfl, rfl⟩

theorem metInv_execute (hash : Str → Nat) (s : SysState) (cmd : ParsedCommand)
    (now : Int) (d : Nat) (h : metInv s.met) :
    metInv (kvExecute hash s cmd now d).1.met := by
  by_cases hg : cmd.type = .GET
  · by_cases hv : cmd.valid = false
    · unfold kvExecute; simpa [hv] using h
    · have hmet : (kvExecute hash s cmd now d).1.met =
          (kvGet hash s.store s.met cmd.key now d).2.2 := by
        unfold kvExecute; simp [hv, hg]
      obtain ⟨hr, hcase⟩ := kvGet_metrics hash s.store s.met cmd.key now d
      unfold metInv at *
      rw [hmet, hr]
      rcases hcase with ⟨hh, hm⟩ | ⟨hh, hm⟩ <;> rw [hh, hm] <;> omega
  · obtain ⟨hh, hm, hr⟩ := counters_execute_ne_get hash s cmd now d hg
    unfold metInv at *
    rw [hh, hm, hr]
    exact h

theorem metInv_applyOps (hash : Str → Nat) (s : SysState) (h : metInv s.met) :
    ∀ ops : List Op, metInv (applyOps hash s ops).met := by
  intro ops
  induction ops generalizing s with
  | nil => exact h
  | cons op rest ih =>
    exact ih (kvExecute hash s op.cmd op.now op.d).1
      (metInv_execute hash s op.cmd op.now op.d h)

/-- C10.  From the all-zero initial metrics, every sequence of public
operations maintains `cache_hits + cache_misses = total_requests`: a valid
GET increments `total_requests` and exactly one of the two, and every other
command (MGET, SET, DEL, COMPACT, STATS, invalid input) leaves all three
counters untouched — so an MGET never changes the STATS hit rate. -/
theorem c10_hit_miss_invariant :
    (∀ (hash : Str → Nat) (ops : List Op), metInv (applyOps hash initState ops).met) ∧
    (∀ (hash : Str → Nat) (s : SysState) (cmd : ParsedCommand) (now : Int) (d : Nat),
      cmd.type ≠ .GET →
      (kvExecute hash s cmd now d).1.met.cache_hits = s.met.cache_hits ∧
      (kvExecute hash s cmd now d).1.met.cache_misses = s.met.cache_misses ∧
      (kvExecute hash s cmd now d).1.met.total_requests = s.met.total_requests) ∧
    (∀ (hash : Str → Nat) (s : SysState) (cmd : ParsedCommand) (now : Int) (d : Nat),
      cmd.valid = true → cmd.type = .GET →
      (kvExecute hash s cmd now d).1.met.total_requests = s.met.total_requests + 1 ∧
      (((kvExecute hash s cmd now d).1.met.cache_hits = s.met.cache_hits + 1 ∧
        (kvExecute hash s cmd now d).1.met.cache_misses = s.met.cache_misses) ∨
       ((kvExecute hash s cmd now d).1.met.cache_hits = s.met.cache_hits ∧
        (kvExecute hash s cmd now d).1.met.cache_misses = s.met.cache_misses + 1))) := by
  refine ⟨?_, ?_, ?_⟩
  · intro hash ops
    exact metInv_applyOps hash initState rfl ops
  · intro hash s cmd now d h
    exact counters_execute_ne_get hash s cmd now d h
  · intro hash s cmd now d hv hg
    have hmet : (kvExecute hash s cmd now d).1.met =
        (kvGet hash s.store s.met cmd.key now d).2.2 := by
      unfold kvExecute
      simp [hv, hg]
    rw [hmet]
    exact kvGet_metrics hash s.store s.met cmd.key now d

/-- Witness for C7 at a concrete input. -/
theorem c7_del_witness :
    emptyStore.length = NUM_SHARDS ∧
    (((kvDel hashZero emptyStore [] true (str "a")).1 =
        (storeLookup hashZero emptyStore (str "a")).isSome) ∧
    (storeLookup hashZero (kvDel hashZero emptyStore [] true (str "a")).2.1 (str "a") = none) ∧
    (∀ k', k' ≠ str "a" →
      storeLookup hashZero (kvDel hashZero emptyStore [] true (str "a")).2.1 k' =
        storeLookup hashZero emptyStore k') ∧
    ((kvDel hashZero emptyStore [] true (str "a")).2.2 =
      if (storeLookup hashZero emptyStore (str "a")).isSome
      then [] ++ [renderDelLine (str "a")] else []) ∧
    (kvDel hashZero (kvDel hashZero emptyStore [] true (str "a")).2.1
        (kvDel hashZero emptyStore [] true (str "a")).2.2 true (str "a") =
      (false, (kvDel hashZero emptyStore [] true (str "a")).2.1,
       (kvDel hashZero emptyStore [] true (str "a")).2.2)) ∧
    (∀ (s : SysState) (now : Int) (d : Nat),
      (kvExecute hashZero s { type := .DEL, key := str "a" } now d).2 = str "OK\n")) :=
  ⟨by decide, c7_del hashZero emptyStore [] (str "a") (by decide)⟩

end MemKV
